import Mathlib

/-!
Shallow embedding of the ZexGP genetic-programming engine
(`zexgp/tree.py`, `zexgp/kernel.py`, `zexgp/thread.py`, `zexgp/config.py`,
`define.py`) in Lean 4, together with theorems settling the frozen claims
about its specification.

Modelling conventions:
* Python callables stored in nodes are represented by identifiers
  (`Nat`), resolved against an external environment when evaluating;
  the arity that Python obtains with `len(signature(func).parameters)`
  is carried next to the identifier.
* Randomness: each call of `random.choice` / `random.randint` consumes
  one draw.  A draw stream is a function `Nat → Nat`; `random.choice(xs)`
  with draw `r` yields `xs[r % len xs]`, and `random.randint(0, n)` with
  draw `r` yields `r % (n + 1)`.  Along a single root-to-leaf descent the
  stream is indexed by the current depth, which matches the sequential
  consumption order of the Python code.  Draws of `random.random()`-based
  weighted choices are modelled by rational numbers.
* A Python exception (IndexError, ValueError, AttributeError,
  AssertionError, RuntimeError, ZeroDivisionError) is modelled by `none`
  or `Except.error`.
* `copy.deepcopy` on the identifier-based trees is the identity on
  values; object identity (needed for the aliasing claim) is treated by
  a second, id-carrying tree type later in the file.
* Walking to the child at index `j` of a slot list is written as a
  structural walk down the list (the `...At` companions below), which is
  exactly list indexing.
-/

/-- A node of the GP tree (`TreeNode` in `zexgp/tree.py`): a name, an
optional callable behavior (identifier plus declared arity), an optional
argument-reference index, and the child slots.  A slot holds `none`
between `__reset_args` and the generation pass that fills it, matching
the `[None] * len(...)` initialisation in the source. -/
inductive TreeNode where
  | mk (name : String) (func : Option (Nat × Nat)) (argIndex : Option Nat)
       (args : List (Option TreeNode))
deriving Repr

mutual

/-- Decidable equality of nodes (the derive handler does not cover
nested inductives, so it is spelled out). -/
def decEqT : (a b : TreeNode) → Decidable (a = b)
  | .mk n f a l, .mk n2 f2 a2 l2 =>
    if hn : n = n2 then
      if hf : f = f2 then
        if ha : a = a2 then
          match decEqSlots l l2 with
          | isTrue hl => isTrue (by rw [hn, hf, ha, hl])
          | isFalse hl => isFalse (by intro h; injection h; exact hl (by assumption))
        else isFalse (by intro h; injection h; exact ha (by assumption))
      else isFalse (by intro h; injection h; exact hf (by assumption))
    else isFalse (by intro h; injection h; exact hn (by assumption))

/-- Decidable equality of child-slot lists. -/
def decEqSlots : (l l2 : List (Option TreeNode)) → Decidable (l = l2)
  | [], [] => isTrue rfl
  | [], _ :: _ => isFalse (by intro h; cases h)
  | _ :: _, [] => isFalse (by intro h; cases h)
  | none :: r, none :: r2 =>
    match decEqSlots r r2 with
    | isTrue hr => isTrue (by rw [hr])
    | isFalse hr => isFalse (by intro h; injection h; exact hr (by assumption))
  | none :: _, some _ :: _ => isFalse (by intro h; injection h; contradiction)
  | some _ :: _, none :: _ => isFalse (by intro h; injection h; contradiction)
  | some c :: r, some c2 :: r2 =>
    match decEqT c c2 with
    | isTrue hc =>
      match decEqSlots r r2 with
      | isTrue hr => isTrue (by rw [hc, hr])
      | isFalse hr => isFalse (by intro h; injection h; exact hr (by assumption))
    | isFalse hc =>
      isFalse (by
        intro h
        injection h with h1 h2
        exact hc (by injection h1))

end

instance : DecidableEq TreeNode := decEqT

namespace TreeNode

/-- Name of a node. -/
def name : TreeNode → String
  | .mk n _ _ _ => n

/-- Behavior (identifier, arity) of a node, `None` for argument references. -/
def func : TreeNode → Option (Nat × Nat)
  | .mk _ f _ _ => f

/-- Argument-reference index of a node, `None` for behavior nodes. -/
def argIndex : TreeNode → Option Nat
  | .mk _ _ a _ => a

/-- Child slots of a node (`self.__args`). -/
def args : TreeNode → List (Option TreeNode)
  | .mk _ _ _ l => l

/-- Replace the child-slot list of a node, keeping the other fields:
the effect of the slot-assignment loops in `grow_gen` / `full_gen`. -/
def setArgs : TreeNode → List (Option TreeNode) → TreeNode
  | .mk n f a _, l => .mk n f a l

end TreeNode

/-- `TreeNode.reset` / `TreeNode.__init__`: builds a node from a name, an
optional behavior and an optional argument index.  A behavior of arity
`k` gets `k` empty child slots (`__reset_args`); an argument reference
gets no slots; if both are absent the constructor raises
(`RuntimeError`), modelled by `none`. -/
def newNode (name : String) (func : Option (Nat × Nat)) (argIndex : Option Nat) :
    Option TreeNode :=
  match func with
  | some (fid, ar) => some (.mk name (some (fid, ar)) none (List.replicate ar none))
  | none =>
    match argIndex with
    | some i => some (.mk name none (some i) [])
    | none => none

mutual

/-- `TreeNode.select`: walks one random root-to-leaf path (one
`random.choice` per internal node), draws
`d = random.randint(0, depth - 1) + 1` at the leaf, and on the way back
up the node whose depth equals `d` returns itself.  `none` models the
`ValueError` raised by `randint(0, -1)` when the walk starts at a
childless root, and the crash on an unfilled (`None`) slot. -/
def select (s : Nat → Nat) : TreeNode → Nat → Option (Option TreeNode × Nat)
  | .mk nm f a [], depth =>
    if depth = 0 then none
    else
      let d := s depth % depth + 1
      if d = depth then some (some (.mk nm f a []), d) else some (none, d)
  | .mk nm f a (x :: r), depth =>
    match selectAt s (x :: r) (s depth % (x :: r).length) (depth + 1) with
    | some (node, d) =>
      if d = depth then some (some (.mk nm f a (x :: r)), d) else some (node, d)
    | none => none

/-- Walk to the slot at index `j` (this is `random.choice`'s indexing)
and continue `select` there. -/
def selectAt (s : Nat → Nat) : List (Option TreeNode) → Nat → Nat →
    Option (Option TreeNode × Nat)
  | [], _, _ => none
  | some c :: _, 0, depth => select s c depth
  | none :: _, 0, _ => none
  | _ :: r, j + 1, depth => selectAt s r j depth

end

mutual

/-- Absolute depth of the leaf reached by the random descent path that
`select` samples (the walked node passed at depth `k`). -/
def pathLen (s : Nat → Nat) : TreeNode → Nat → Nat
  | .mk _ _ _ [], k => k
  | .mk _ _ _ (x :: r), k => pathLenAt s (x :: r) (s k % (x :: r).length) k

/-- List companion of `pathLen`: the walk ends at depth `k` when the
chosen slot is missing or unfilled. -/
def pathLenAt (s : Nat → Nat) : List (Option TreeNode) → Nat → Nat → Nat
  | [], _, k => k
  | some c :: _, 0, k => pathLen s c (k + 1)
  | none :: _, 0, k => k
  | _ :: r, j + 1, k => pathLenAt s r j k

end

mutual

/-- The node sitting at absolute depth `d` on the random descent path,
starting from the walked node at depth `k`; `none` when `d` is off the
path. -/
def pathNode (s : Nat → Nat) : TreeNode → Nat → Nat → Option TreeNode
  | t, k, d =>
    if k = d then some t
    else
      match t with
      | .mk _ _ _ [] => none
      | .mk _ _ _ (x :: r) => pathNodeAt s (x :: r) (s k % (x :: r).length) (k + 1) d

/-- List companion of `pathNode`. -/
def pathNodeAt (s : Nat → Nat) : List (Option TreeNode) → Nat → Nat → Nat →
    Option TreeNode
  | [], _, _, _ => none
  | some c :: _, 0, k, d => pathNode s c k d
  | none :: _, 0, _, _ => none
  | _ :: r, j + 1, k, d => pathNodeAt s r j k d

end

/-- The target depth the locator draws: at the leaf of the descent path
(depth `L`) the code draws `randint(0, L-1) + 1`, i.e. uniformly from
`{1 .. L}`. -/
def drawnDepth (s : Nat → Nat) (t : TreeNode) (k : Nat) : Nat :=
  s (pathLen s t k) % pathLen s t k + 1

mutual

/-- Arity invariant (`§8` of the spec): a behavior node has exactly
arity-many child slots, each holding an actual node that again satisfies
the invariant; an argument reference has no children. -/
def wfT : TreeNode → Bool
  | .mk _ (some (_, ar)) none l => l.length = ar && wfArgs l
  | .mk _ none (some _) l => l.isEmpty
  | _ => false

/-- All slots of the list are filled with invariant-satisfying nodes. -/
def wfArgs : List (Option TreeNode) → Bool
  | [] => true
  | none :: _ => false
  | some c :: rest => wfT c && wfArgs rest

end

mutual

/-- Every leaf of the tree lies at relative depth exactly `d` (an
unfilled slot contributes no leaf). -/
def leavesExact : TreeNode → Nat → Bool
  | .mk _ _ _ [], d => d = 0
  | .mk _ _ _ (_ :: _), 0 => false
  | .mk _ _ _ (x :: r), d + 1 => leavesExactArgs (x :: r) d

/-- List companion of `leavesExact`. -/
def leavesExactArgs : List (Option TreeNode) → Nat → Bool
  | [], _ => true
  | none :: r, d => leavesExactArgs r d
  | some c :: r, d => leavesExact c d && leavesExactArgs r d

end

mutual

/-- Every leaf of the tree lies at relative depth at most `d`. -/
def leavesWithin : TreeNode → Nat → Bool
  | .mk _ _ _ [], _ => true
  | .mk _ _ _ (_ :: _), 0 => false
  | .mk _ _ _ (x :: r), d + 1 => leavesWithinArgs (x :: r) d

/-- List companion of `leavesWithin`. -/
def leavesWithinArgs : List (Option TreeNode) → Nat → Bool
  | [], _ => true
  | none :: r, d => leavesWithinArgs r d
  | some c :: r, d => leavesWithin c d && leavesWithinArgs r d

end

/-- Tree-generation method (`GenMethod` in `define.py`). -/
inductive GenMethod where
  | grow
  | full
deriving DecidableEq, Repr

/-- A registry entry: name, optional behavior (identifier, arity),
optional argument index — the shape of `(func, index)` values stored in
the `TreeManager` dictionaries, keyed by name. -/
abbrev RegEntry := String × Option (Nat × Nat) × Option Nat

/-- The symbol registry (`TreeManager` in `zexgp/tree.py`): functions
(arity at least 1) and terminals (arity 0 or argument references), in
insertion order as the Python dictionaries iterate them. -/
structure TreeManager where
  funcs : List RegEntry
  terms : List RegEntry
deriving DecidableEq, Repr

/-- Dictionary-style insertion: replace the value of an existing key in
place, otherwise append. -/
def upsert (l : List RegEntry) (name : String)
    (v : Option (Nat × Nat) × Option Nat) : List RegEntry :=
  if l.any (fun e => e.1 = name) then
    l.map (fun e => if e.1 = name then (name, v) else e)
  else l ++ [(name, v)]

/-- `TreeManager.add`: an argument index registers a terminal; otherwise
the declared arity of the callable decides between function (arity at
least 1) and terminal; `none` models the crash when neither a callable
nor an index is supplied. -/
def TreeManager.add (tm : TreeManager) (name : String)
    (func : Option (Nat × Nat)) (argIndex : Option Nat) : Option TreeManager :=
  match argIndex with
  | some i => some { tm with terms := upsert tm.terms name (none, some i) }
  | none =>
    match func with
    | some (fid, ar) =>
      if 1 ≤ ar then
        some { tm with funcs := upsert tm.funcs name (some (fid, ar), none) }
      else
        some { tm with terms := upsert tm.terms name (some (fid, ar), none) }
    | none => none

/-- Well-formed function entry: a behavior of arity at least 1. -/
def WfEntryF : RegEntry → Bool
  | (_, some (_, ar), none) => 1 ≤ ar
  | _ => false

/-- Well-formed terminal entry: a zero-arity behavior or an argument
reference. -/
def WfEntryT : RegEntry → Bool
  | (_, some (_, 0), none) => true
  | (_, none, some _) => true
  | _ => false

/-- Registry well-formedness: exactly what `TreeManager.add` establishes. -/
def WfTM (tm : TreeManager) : Bool :=
  tm.funcs.all WfEntryF && tm.terms.all WfEntryT

/-- `__pick_all`: uniform choice over functions and terminals together. -/
def pickAll (tm : TreeManager) (r : Nat) : Option RegEntry :=
  let l := tm.funcs ++ tm.terms
  l[r % l.length]?

/-- `__pick_func`: uniform choice over the functions. -/
def pickFunc (tm : TreeManager) (r : Nat) : Option RegEntry :=
  tm.funcs[r % tm.funcs.length]?

/-- `__pick_term`: uniform choice over the terminals. -/
def pickTerm (tm : TreeManager) (r : Nat) : Option RegEntry :=
  tm.terms[r % tm.terms.length]?

/-- `TreeNode(*entry)`: build a node from a picked registry entry. -/
def entryNode (e : RegEntry) : Option TreeNode :=
  newNode e.1 e.2.1 e.2.2

/-- A freshly constructed node from `__pick_all`. -/
def pickAllNode (tm : TreeManager) (r : Nat) : Option TreeNode :=
  (pickAll tm r).bind entryNode

/-- A freshly constructed node from `__pick_func`. -/
def pickFuncNode (tm : TreeManager) (r : Nat) : Option TreeNode :=
  (pickFunc tm r).bind entryNode

/-- A freshly constructed node from `__pick_term`. -/
def pickTermNode (tm : TreeManager) (r : Nat) : Option TreeNode :=
  (pickTerm tm r).bind entryNode

/-- Fill `n` child slots with forced terminal picks: the
`depth == 0` arm of both `grow_gen` and `full_gen`.  Returns the filled
slots and the next draw index. -/
def termSlots (tm : TreeManager) (s : Nat → Nat) :
    Nat → Nat → Option (List (Option TreeNode) × Nat)
  | 0, k => some ([], k)
  | n + 1, k =>
    match pickTermNode tm (s k) with
    | none => none
    | some child =>
      match termSlots tm s n (k + 1) with
      | none => none
      | some (rest, k2) => some (some child :: rest, k2)

/-- Fill `n` child slots, each by drawing one symbol with `pick` and
filling the fresh child's own slots with `fill`: the `depth != 0` arm of
`grow_gen` / `full_gen`, with `fill` standing for the recursive call one
level deeper. -/
def slotsGo (tm : TreeManager) (s : Nat → Nat)
    (pick : TreeManager → Nat → Option TreeNode)
    (fill : TreeNode → Nat → Option (TreeNode × Nat)) :
    Nat → Nat → Option (List (Option TreeNode) × Nat)
  | 0, k => some ([], k)
  | n + 1, k =>
    match pick tm (s k) with
    | none => none
    | some child =>
      match fill child (k + 1) with
      | none => none
      | some (child2, k2) =>
        match slotsGo tm s pick fill n k2 with
        | none => none
        | some (rest, k3) => some (some child2 :: rest, k3)

/-- `TreeNode.grow_gen`, expressed on slot lists: with budget left a
slot gets an arbitrary symbol (`__pick_all`) whose own slots are filled
with budget one less; with budget 0 a terminal is forced. -/
def growSlots (tm : TreeManager) (s : Nat → Nat) :
    Nat → Nat → Nat → Option (List (Option TreeNode) × Nat)
  | 0 => fun n k => termSlots tm s n k
  | d + 1 => fun n k =>
    slotsGo tm s pickAllNode
      (fun child k2 =>
        (growSlots tm s d child.args.length k2).map
          (fun p => (child.setArgs p.1, p.2)))
      n k

/-- `TreeNode.full_gen`, expressed on slot lists: as `growSlots`, but
with budget left the pick is restricted to functions. -/
def fullSlots (tm : TreeManager) (s : Nat → Nat) :
    Nat → Nat → Nat → Option (List (Option TreeNode) × Nat)
  | 0 => fun n k => termSlots tm s n k
  | d + 1 => fun n k =>
    slotsGo tm s pickFuncNode
      (fun child k2 =>
        (fullSlots tm s d child.args.length k2).map
          (fun p => (child.setArgs p.1, p.2)))
      n k

/-- `TreeManager.__tree_gen`: asserts a positive depth and a non-empty
registry on both sides, dispatches on the method (`-1`, i.e. an unknown
method name, raises), and fills the children of `t` in place. -/
def treeGen (tm : TreeManager) (method : Option GenMethod) (depth : Nat)
    (t : TreeNode) (s : Nat → Nat) (k : Nat) : Option (TreeNode × Nat) :=
  if depth = 0 then none
  else if tm.funcs.length = 0 ∨ tm.terms.length = 0 then none
  else
    match method with
    | some .grow =>
      (growSlots tm s depth t.args.length k).map (fun p => (t.setArgs p.1, p.2))
    | some .full =>
      (fullSlots tm s depth t.args.length k).map (fun p => (t.setArgs p.1, p.2))
    | none => none

/-- `TreeManager.generate`: pick a fresh function node as root, then run
`__tree_gen` on it. -/
def generate (tm : TreeManager) (method : Option GenMethod) (depth : Nat)
    (s : Nat → Nat) (k : Nat) : Option (TreeNode × Nat) :=
  match pickFuncNode tm (s k) with
  | none => none
  | some root => treeGen tm method depth root s (k + 1)

mutual

/-- `TreeNode.eval`: an argument reference returns `args[index]` (out of
range raises IndexError, modelled by `none`); otherwise the children are
evaluated left to right and the behavior — resolved from the identifier
by the environment `F` — is applied to the list of results. -/
def evalT (F : Nat → List Int → Int) : TreeNode → List Int → Option Int
  | .mk _ _ (some i) _, xs => xs[i]?
  | .mk _ f none l, xs =>
    match f with
    | some (fid, _) => (evalArgs F l xs).map (F fid)
    | none => none

/-- Evaluate a child-slot list left to right, failing on the first
failing child or on an unfilled slot. -/
def evalArgs (F : Nat → List Int → Int) :
    List (Option TreeNode) → List Int → Option (List Int)
  | [], _ => some []
  | none :: _, _ => none
  | some c :: rest, xs =>
    match evalT F c xs with
    | none => none
    | some v => (evalArgs F rest xs).map (v :: ·)

end

mutual

/-- `TreeNode.replace`: walk one random path exactly as `select` does,
draw the target depth at the leaf, and on the way back up the node whose
depth equals the draw overwrites its name, behavior, argument index and
children with those of `donor` (children deep-copied).  The leaf itself
performs no such check.  A `none` donor models the `AttributeError`
raised when the overwrite fires with `tree = None`.  Returns the updated
tree and the drawn depth. -/
def replaceGo (s : Nat → Nat) (donor : Option TreeNode) :
    TreeNode → Nat → Option (TreeNode × Nat)
  | .mk nm f a [], depth =>
    if depth = 0 then none
    else some (.mk nm f a [], s depth % depth + 1)
  | .mk nm f a (x :: r), depth =>
    match replaceAt s donor (x :: r) (s depth % (x :: r).length) (depth + 1) with
    | some (slots, d) =>
      if d = depth then
        match donor with
        | some dn => some (.mk dn.name dn.func dn.argIndex dn.args, d)
        | none => none
      else some (.mk nm f a slots, d)
    | none => none

/-- Walk to the slot at index `j` and continue `replace` there,
rebuilding the slot list around the updated child. -/
def replaceAt (s : Nat → Nat) (donor : Option TreeNode) :
    List (Option TreeNode) → Nat → Nat → Option (List (Option TreeNode) × Nat)
  | [], _, _ => none
  | some c :: rest, 0, depth =>
    match replaceGo s donor c depth with
    | some (c2, d) => some (some c2 :: rest, d)
    | none => none
  | none :: _, 0, _ => none
  | x :: rest, j + 1, depth =>
    match replaceAt s donor rest j depth with
    | some (slots, d) => some (x :: slots, d)
    | none => none

end

/-- `TreeManager.crossover`: deep-clone `tree1` (on values the clone is
the tree itself), select a donor subtree in `tree2`, then run `replace`
on the clone.  `s1` drives the donor selection, `s2` the replacement
path. -/
def crossover (s1 s2 : Nat → Nat) (t1 t2 : TreeNode) : Option TreeNode :=
  match select s1 t2 0 with
  | none => none
  | some (donor, _) =>
    match replaceGo s2 donor t1 0 with
    | none => none
    | some (t, _) => some t

mutual

/-- `TreeManager.mutate`: select a subtree with the `select` draws `s`;
if the selected node is a leaf, reset it to a freshly picked function
(draw `g 0`); then regenerate its children with `__tree_gen` (draws `g`,
shifted past the reset pick when one happened).  Expressed as a rebuild
along the sampled path, which is what the in-place Python mutation of
the aliased selected node amounts to. -/
def mutateGo (tm : TreeManager) (method : Option GenMethod) (dep : Nat)
    (s g : Nat → Nat) : TreeNode → Nat → Option (TreeNode × Nat)
  | .mk nm f a [], depth =>
    if depth = 0 then none
    else
      let d := s depth % depth + 1
      if d = depth then
        match pickFuncNode tm (g 0) with
        | none => none
        | some fresh =>
          match treeGen tm method dep fresh (fun i => g (i + 1)) 0 with
          | none => none
          | some (t2, _) => some (t2, d)
      else some (.mk nm f a [], d)
  | .mk nm f a (x :: r), depth =>
    match mutateAt tm method dep s g (x :: r) (s depth % (x :: r).length) (depth + 1) with
    | some (slots, d) =>
      if d = depth then
        match treeGen tm method dep (.mk nm f a (x :: r)) g 0 with
        | none => none
        | some (t2, _) => some (t2, d)
      else some (.mk nm f a slots, d)
    | none => none

/-- Walk to the slot at index `j` and continue the mutation walk there,
rebuilding the slot list around the updated child. -/
def mutateAt (tm : TreeManager) (method : Option GenMethod) (dep : Nat)
    (s g : Nat → Nat) :
    List (Option TreeNode) → Nat → Nat → Option (List (Option TreeNode) × Nat)
  | [], _, _ => none
  | some c :: rest, 0, depth =>
    match mutateGo tm method dep s g c depth with
    | some (c2, d) => some (some c2 :: rest, d)
    | none => none
  | none :: _, 0, _ => none
  | x :: rest, j + 1, depth =>
    match mutateAt tm method dep s g rest j depth with
    | some (slots, d) => some (x :: slots, d)
    | none => none

end

/-- `TreeManager.mutate`, final result. -/
def mutate (tm : TreeManager) (method : Option GenMethod) (dep : Nat)
    (s g : Nat → Nat) (t : TreeNode) : Option TreeNode :=
  (mutateGo tm method dep s g t 0).map (fun p => p.1)

/-- Parent-selection method (`SelectMethod` in `define.py`). -/
inductive SelectMethod where
  | fitness
  | tournament
deriving DecidableEq, Repr

/-- Genetic operation (`Operation` in `define.py`). -/
inductive Operation where
  | crossover
  | mutation
  | reproduction
deriving DecidableEq, Repr

/-- The configuration mapping, with the fields the kernel reads.
Fitness values and operator probabilities are modelled as rationals. -/
structure Config where
  populationSize : Nat
  maxGenerations : Nat
  maxRuns : Nat
  probCrossover : Rat
  probMutation : Rat
  probReproduction : Rat
  minDepth : Nat
  maxDepth : Nat
  genMethod : String
  selectMethod : String
  tournamentSize : Nat
deriving DecidableEq, Repr

/-- The defaults installed by `Kernel.__init__`. -/
def defaultConfig : Config :=
  { populationSize := 1000, maxGenerations := 100, maxRuns := 10,
    probCrossover := 4 / 5, probMutation := 1 / 10, probReproduction := 1 / 10,
    minDepth := 2, maxDepth := 10, genMethod := "grow",
    selectMethod := "tournament", tournamentSize := 10 }

/-- `ConfigManager.load` (via `Kernel.load_conf`): the parsed JSON
replaces the whole mapping; the only validation is that the JSON is a
mapping (otherwise RuntimeError).  No field value — in particular no
method name — is inspected at load time. -/
def loadConf (isMapping : Bool) (incoming : Config) : Except String Config :=
  if isMapping then .ok incoming else .error "invalid configuration file"

/-- `__get_gen_method`: dictionary lookup with default `-1` (here
`none`) for an unknown name. -/
def getGenMethodK (c : Config) : Option GenMethod :=
  if c.genMethod = "grow" then some .grow
  else if c.genMethod = "full" then some .full
  else none

/-- `__get_select_method`: dictionary lookup with default `-1` (here
`none`) for an unknown name. -/
def getSelectMethodK (c : Config) : Option SelectMethod :=
  if c.selectMethod = "fitness" then some .fitness
  else if c.selectMethod = "tournament" then some .tournament
  else none

/-- `__get_depth`: `random.randint(minDepth, maxDepth)`; an empty range
raises, modelled by `none`. -/
def getDepthK (c : Config) (r : Nat) : Option Nat :=
  if c.maxDepth < c.minDepth then none
  else some (c.minDepth + r % (c.maxDepth - c.minDepth + 1))

/-- `random.choices(xs, weights)` given one uniform draw `r` in
`[0, total)`: scan the cumulative weights; `none` when the total weight
is not positive (ValueError) or the list is empty. -/
def pickWeighted {α : Type} : List α → List Rat → Rat → Option α
  | [], _, _ => none
  | _ :: _, [], _ => none
  | x :: xs, w :: ws, r => if r < w then some x else pickWeighted xs ws (r - w)

/-- `__get_op`: weighted choice among the three operations with the raw
configured probabilities as weights. -/
def getOp (c : Config) (r : Rat) : Option Operation :=
  pickWeighted [Operation.crossover, Operation.mutation, Operation.reproduction]
    [c.probCrossover, c.probMutation, c.probReproduction] r

/-- Stable insertion into a descending-sorted list: the new element goes
before the first element whose fitness it reaches.  Python's
`list.sort(key=..., reverse=True)` is a stable descending sort, and the
stable descending sort of a list is unique, so this insertion sort is
that sort. -/
def insertDesc (x : TreeNode × Rat) :
    List (TreeNode × Rat) → List (TreeNode × Rat)
  | [] => [x]
  | y :: r => if y.2 ≤ x.2 then x :: y :: r else y :: insertDesc x r

/-- Stable descending sort by fitness, the model of
`trees.sort(key=lambda x: x[1], reverse=True)`. -/
def sortDesc : List (TreeNode × Rat) → List (TreeNode × Rat)
  | [] => []
  | x :: r => insertDesc x (sortDesc r)

/-- `Kernel.__select_tree`: fitness-proportionate selection normalises
by the fitness sum (a zero sum divides by zero; an empty population
makes `random.choices` fail) and draws twice with replacement;
tournament selection draws `tournamentSize` individuals uniformly with
replacement, sorts them descending by fitness (stably) and returns the
top two; an unrecognised method raises RuntimeError.  `w1`, `w2` are the
two weighted draws, `ts` the stream of tournament `random.choice`
draws. -/
def selectTreeK (c : Config) (pop : List (TreeNode × Rat)) (w1 w2 : Rat)
    (ts : Nat → Nat) : Except String (TreeNode × TreeNode) :=
  match getSelectMethodK c with
  | some .fitness =>
    match pop with
    | [] => .error "list index out of range"
    | _ :: _ =>
      let total := (pop.map (fun i => i.2)).sum
      if total = 0 then .error "division by zero"
      else
        let w := pop.map (fun i => i.2 / total)
        match pickWeighted pop w w1, pickWeighted pop w w2 with
        | some p1, some p2 => .ok (p1.1, p2.1)
        | _, _ => .error "total of weights must be greater than zero"
  | some .tournament =>
    match (List.range c.tournamentSize).mapM (fun i => pop[ts i % pop.length]?) with
    | none => .error "list index out of range"
    | some chosen =>
      let sorted := sortDesc chosen
      match sorted[0]?, sorted[1]? with
      | some p1, some p2 => .ok (p1.1, p2.1)
      | _, _ => .error "list index out of range"
  | none => .error "invalid selection method"

/-- `SubRun.__select_tree` in `zexgp/thread.py`: as the kernel version,
except that the fitness branch feeds the raw fitness values to
`random.choices` without normalising. -/
def selectTreeS (c : Config) (pop : List (TreeNode × Rat)) (w1 w2 : Rat)
    (ts : Nat → Nat) : Except String (TreeNode × TreeNode) :=
  match getSelectMethodK c with
  | some .fitness =>
    let w := pop.map (fun i => i.2)
    match pickWeighted pop w w1, pickWeighted pop w w2 with
    | some p1, some p2 => .ok (p1.1, p2.1)
    | _, _ => .error "total of weights must be greater than zero"
  | some .tournament =>
    match (List.range c.tournamentSize).mapM (fun i => pop[ts i % pop.length]?) with
    | none => .error "list index out of range"
    | some chosen =>
      let sorted := sortDesc chosen
      match sorted[0]?, sorted[1]? with
      | some p1, some p2 => .ok (p1.1, p2.1)
      | _, _ => .error "list index out of range"
  | none => .error "invalid selection method"

/-- The random draws one loop iteration of `SubRun.run` may consume, in
consumption order: the two weighted selection draws or the tournament
choice stream, the operator draw, the depth draw, and the streams of the
chosen operator. -/
structure IterDraw where
  selW1 : Rat
  selW2 : Rat
  selT : Nat → Nat
  opR : Rat
  depthR : Nat
  xoSel : Nat → Nat
  xoRep : Nat → Nat
  mutSel : Nat → Nat
  mutGen : Nat → Nat

/-- One iteration of the `SubRun.run` loop: select two parents, draw an
operation, apply it (cloning the first parent for mutation and
reproduction — on values the clone is the parent), evaluate the
offspring's fitness. -/
def subRunStep (c : Config) (tm : TreeManager) (fit : TreeNode → Rat)
    (pop : List (TreeNode × Rat)) (d : IterDraw) :
    Except String (TreeNode × Rat) :=
  match selectTreeS c pop d.selW1 d.selW2 d.selT with
  | .error e => .error e
  | .ok (t1, t2) =>
    match getOp c d.opR with
    | none => .error "total of weights must be greater than zero"
    | some .crossover =>
      match crossover d.xoSel d.xoRep t1 t2 with
      | none => .error "exception in crossover"
      | some t => .ok (t, fit t)
    | some .mutation =>
      match getDepthK c d.depthR with
      | none => .error "empty range for randrange"
      | some dep =>
        match mutate tm (getGenMethodK c) dep d.mutSel d.mutGen t1 with
        | none => .error "exception in mutation"
        | some t => .ok (t, fit t)
    | some .reproduction => .ok (t1, fit t1)

/-- `SubRun.run`: produce `n` offspring for this worker's private output
list, iteration `i` consuming the draws `ds i`, appending in production
order. -/
def subRun (c : Config) (tm : TreeManager) (fit : TreeNode → Rat)
    (pop : List (TreeNode × Rat)) (ds : Nat → IterDraw) :
    Nat → Nat → Except String (List (TreeNode × Rat))
  | _, 0 => .ok []
  | i, n + 1 =>
    match subRunStep c tm fit pop (ds i) with
    | .error e => .error e
    | .ok x =>
      match subRun c tm fit pop ds (i + 1) n with
      | .error e => .error e
      | .ok rest => .ok (x :: rest)

/-- Modelled from the spec: the worker-count dispatch of the run entry
point is not among the staged sources (only the `SubRun` worker of
`zexgp/thread.py` is).  Spec §4.7: split a population of size `P` into
`J` shards, the first `J - 1` of size `⌊P/J⌋` and the last taking the
remainder. -/
def shardSizes (P J : Nat) : List Nat :=
  List.replicate (J - 1) (P / J) ++ [P - (J - 1) * (P / J)]

/-- Modelled from the spec: dispatch one worker per shard (worker `j`
consuming the draws `ds j`) and concatenate the outputs in shard
order. -/
def runShards (c : Config) (tm : TreeManager) (fit : TreeNode → Rat)
    (pop : List (TreeNode × Rat)) (ds : Nat → Nat → IterDraw) :
    List Nat → Nat → Except String (List (TreeNode × Rat))
  | [], _ => .ok []
  | sz :: rest, j =>
    match subRun c tm fit pop (ds j) 0 sz with
    | .error e => .error e
    | .ok shard =>
      match runShards c tm fit pop ds rest (j + 1) with
      | .error e => .error e
      | .ok more => .ok (shard ++ more)

/-- Modelled from the spec: one generation of the run entry point with
worker count `J` — a worker count that would give a shard of size 0
(`J > P`, or no workers at all) is a configuration error; otherwise the
shard outputs, concatenated in shard order, form the next population. -/
def runGeneration (c : Config) (tm : TreeManager) (fit : TreeNode → Rat)
    (pop : List (TreeNode × Rat)) (J : Nat) (ds : Nat → Nat → IterDraw) :
    Except String (List (TreeNode × Rat)) :=
  if J = 0 ∨ pop.length < J then .error "invalid worker count"
  else runShards c tm fit pop ds (shardSizes pop.length J) 0

/-- A GP-tree node annotated with its Python object identity: `dupT`
(the model of `copy.deepcopy`) allocates fresh identities, so two trees
share a node object exactly when they share an identity. -/
inductive IdTree where
  | mk (oid : Nat) (name : String) (func : Option (Nat × Nat))
       (argIndex : Option Nat) (args : List (Option IdTree))
deriving Repr

namespace IdTree

/-- Object identity of the node. -/
def oid : IdTree → Nat
  | .mk o _ _ _ _ => o

/-- Name of the node. -/
def name : IdTree → String
  | .mk _ n _ _ _ => n

/-- Behavior of the node. -/
def func : IdTree → Option (Nat × Nat)
  | .mk _ _ f _ _ => f

/-- Argument-reference index of the node. -/
def argIndex : IdTree → Option Nat
  | .mk _ _ _ a _ => a

/-- Child slots of the node. -/
def args : IdTree → List (Option IdTree)
  | .mk _ _ _ _ l => l

end IdTree

mutual

/-- All object identities occurring in a tree. -/
def idsT : IdTree → List Nat
  | .mk o _ _ _ l => o :: idsArgs l

/-- All object identities occurring in a slot list. -/
def idsArgs : List (Option IdTree) → List Nat
  | [] => []
  | none :: r => idsArgs r
  | some c :: r => idsT c ++ idsArgs r

end

mutual

/-- `copy.deepcopy` / `TreeNode.duplicate` with identities made
explicit: a structurally equal tree whose every node is a fresh object,
numbered from the counter `ctr` upwards; returns the copy and the next
free identity. -/
def dupT : Nat → IdTree → IdTree × Nat
  | ctr, .mk _ n f a l =>
    let p := dupArgs (ctr + 1) l
    (.mk ctr n f a p.1, p.2)

/-- Deep-copy a slot list with fresh identities. -/
def dupArgs : Nat → List (Option IdTree) → List (Option IdTree) × Nat
  | ctr, [] => ([], ctr)
  | ctr, none :: r =>
    let p := dupArgs ctr r
    (none :: p.1, p.2)
  | ctr, some c :: r =>
    let p := dupT ctr c
    let q := dupArgs p.2 r
    (some p.1 :: q.1, q.2)

end

mutual

/-- `TreeNode.select` on identity-annotated trees (same walk as
`select`; the returned node is an alias into the walked tree). -/
def selectI (s : Nat → Nat) : IdTree → Nat → Option (Option IdTree × Nat)
  | .mk o nm f a [], depth =>
    if depth = 0 then none
    else
      let d := s depth % depth + 1
      if d = depth then some (some (.mk o nm f a []), d) else some (none, d)
  | .mk o nm f a (x :: r), depth =>
    match selectAtI s (x :: r) (s depth % (x :: r).length) (depth + 1) with
    | some (node, d) =>
      if d = depth then some (some (.mk o nm f a (x :: r)), d) else some (node, d)
    | none => none

/-- Walk to slot `j` and continue `selectI` there. -/
def selectAtI (s : Nat → Nat) : List (Option IdTree) → Nat → Nat →
    Option (Option IdTree × Nat)
  | [], _, _ => none
  | some c :: _, 0, depth => selectI s c depth
  | none :: _, 0, _ => none
  | _ :: r, j + 1, depth => selectAtI s r j depth

end

mutual

/-- `TreeNode.replace` on identity-annotated trees: when the overwrite
fires, the target node keeps its own identity (Python assigns to the
attributes of the existing object) while the donor's children are
deep-copied with fresh identities drawn from the counter. -/
def replaceGoI (s : Nat → Nat) (donor : Option IdTree) :
    IdTree → Nat → Nat → Option (IdTree × Nat × Nat)
  | .mk o nm f a [], depth, ctr =>
    if depth = 0 then none
    else some (.mk o nm f a [], s depth % depth + 1, ctr)
  | .mk o nm f a (x :: r), depth, ctr =>
    match replaceAtI s donor (x :: r) (s depth % (x :: r).length) (depth + 1) ctr with
    | some (slots, d, ctr2) =>
      if d = depth then
        match donor with
        | some dn =>
          let p := dupArgs ctr2 dn.args
          some (.mk o dn.name dn.func dn.argIndex p.1, d, p.2)
        | none => none
      else some (.mk o nm f a slots, d, ctr2)
    | none => none

/-- Walk to slot `j` and continue `replaceGoI` there. -/
def replaceAtI (s : Nat → Nat) (donor : Option IdTree) :
    List (Option IdTree) → Nat → Nat → Nat →
    Option (List (Option IdTree) × Nat × Nat)
  | [], _, _, _ => none
  | some c :: rest, 0, depth, ctr =>
    match replaceGoI s donor c depth ctr with
    | some (c2, d, ctr2) => some (some c2 :: rest, d, ctr2)
    | none => none
  | none :: _, 0, _, _ => none
  | x :: rest, j + 1, depth, ctr =>
    match replaceAtI s donor rest j depth ctr with
    | some (slots, d, ctr2) => some (x :: slots, d, ctr2)
    | none => none

end

/-- `TreeManager.crossover` on identity-annotated trees: deep-clone
`tree1` with fresh identities, select a donor alias inside `tree2`, run
`replace` on the clone.  Returns the offspring and the next free
identity. -/
def crossoverI (s1 s2 : Nat → Nat) (t1 t2 : IdTree) (ctr : Nat) :
    Option (IdTree × Nat) :=
  let p := dupT ctr t1
  match selectI s1 t2 0 with
  | none => none
  | some (donor, _) =>
    match replaceGoI s2 donor p.1 0 p.2 with
    | none => none
    | some (t, _, c2) => some (t, c2)

/-- A concrete terminal node (behavior id 1, arity 0). -/
def leafOne : TreeNode := .mk "1" (some (1, 0)) none []

/-- A concrete terminal node (behavior id 2, arity 0). -/
def leafTwo : TreeNode := .mk "2" (some (2, 0)) none []

/-- A concrete two-terminal function tree, all leaves at depth 1. -/
def treeF : TreeNode := .mk "f" (some (0, 2)) none [some leafOne, some leafTwo]

/-- A second concrete function tree with distinct symbols. -/
def treeG : TreeNode :=
  .mk "g" (some (5, 2)) none
    [some (.mk "3" (some (3, 0)) none []), some (.mk "4" (some (4, 0)) none [])]

/-- A concrete registry: one binary function, one constant terminal, one
argument reference. -/
def tmEx : TreeManager :=
  { funcs := [("f", some (0, 2), none)],
    terms := [("1", some (1, 0), none), ("x", none, some 0)] }

/-- The all-zero draw stream. -/
def zeroS : Nat → Nat := fun _ => 0

/-- `treeF` with object identities 0, 1, 2. -/
def idTreeF : IdTree :=
  .mk 0 "f" (some (0, 2)) none
    [some (.mk 1 "1" (some (1, 0)) none []), some (.mk 2 "2" (some (2, 0)) none [])]

/-- `treeG` with object identities 3, 4, 5. -/
def idTreeG : IdTree :=
  .mk 3 "g" (some (5, 2)) none
    [some (.mk 4 "3" (some (3, 0)) none []), some (.mk 5 "4" (some (4, 0)) none [])]

/-- A concrete two-individual population. -/
def popEx : List (TreeNode × Rat) := [(treeF, 1), (treeG, 2)]

/-- The default configuration with an unknown selection-method name. -/
def confUnknownSel : Config := { defaultConfig with selectMethod := "evolution" }

/-- The default configuration with a tournament size exceeding the
two-individual population. -/
def confBigTournament : Config := { defaultConfig with tournamentSize := 5 }

/-- A constant draw structure for one worker iteration. -/
def zeroDraw : IterDraw :=
  { selW1 := 0, selW2 := 0, selT := zeroS, opR := 0, depthR := 0,
    xoSel := zeroS, xoRep := zeroS, mutSel := zeroS, mutGen := zeroS }

/-- The result of mutating `treeF` with the concrete draws of the C10
witness. -/
def mutEx : TreeNode :=
  .mk "f" (some (0, 2)) none
    [some (.mk "f" (some (0, 2)) none
      [some (.mk "1" (some (1, 0)) none []), some (.mk "1" (some (1, 0)) none [])]),
     some leafTwo]

/-- A function node whose slot count matches its declared arity (the
state `__reset_args` establishes and generation relies on). -/
def arityOkB : TreeNode → Bool
  | .mk _ (some (_, ar)) none l => l.length = ar
  | _ => false

/-- A concrete behavior environment: behavior `fid` sums its arguments
and adds `fid`. -/
def envEx : Nat → List Int → Int := fun fid xs => (fid : Int) + xs.sum

/-- The deep copy of `idTreeF` made with the identity counter at 6. -/
def idDupF : IdTree :=
  .mk 6 "f" (some (0, 2)) none
    [some (.mk 7 "1" (some (1, 0)) none []), some (.mk 8 "2" (some (2, 0)) none [])]

/-- The next population computed in the C9 witness run. -/
def c9out : List (TreeNode × Rat) := [(treeF, 1), (treeF, 1)]

/-- The default configuration with integral operator weights (crossover
only), used by the C9 witness run. -/
def confC9 : Config :=
  { defaultConfig with
      probCrossover := 1
      probMutation := 0
      probReproduction := 0 }

-- END-OF-DEFINITIONS marker: claim-supporting example inputs are inserted above.

theorem wfT_wfArgs {t : TreeNode} (h : wfT t = true) : wfArgs t.args = true := by
  rcases t with ⟨n, f, a, l⟩
  cases f with
  | some fa =>
    cases a with
    | none =>
      rcases fa with ⟨fid, ar⟩
      simp only [wfT, Bool.and_eq_true] at h
      exact h.2
    | some _ => simp [wfT] at h
  | none =>
    cases a with
    | some i =>
      simp only [wfT, List.isEmpty_iff] at h
      subst h
      rfl
    | none => simp [wfT] at h

theorem wfArgs_get {l : List (Option TreeNode)} (h : wfArgs l = true) :
    ∀ {j : Nat}, j < l.length → ∃ c, l[j]? = some (some c) ∧ wfT c = true := by
  induction l with
  | nil => intro j hj; simp at hj
  | cons x rest ih =>
    intro j hj
    cases x with
    | none => simp [wfArgs] at h
    | some c =>
      rw [wfArgs, Bool.and_eq_true] at h
      cases j with
      | zero => exact ⟨c, by simp, h.1⟩
      | succ j =>
        obtain ⟨c2, hc2, hwf⟩ := ih h.2 (by simpa using hj)
        exact ⟨c2, by simpa using hc2, hwf⟩

theorem selectAt_get (s : Nat → Nat) (depth : Nat) :
    ∀ {l : List (Option TreeNode)} {j : Nat} {c : TreeNode},
      l[j]? = some (some c) → selectAt s l j depth = select s c depth := by
  intro l
  induction l with
  | nil => intro j c h; simp at h
  | cons x r ih =>
    intro j c h
    cases j with
    | zero =>
      simp at h
      subst h
      rfl
    | succ j =>
      simp at h
      cases x <;> exact ih h

theorem pathLenAt_get (s : Nat → Nat) (k : Nat) :
    ∀ {l : List (Option TreeNode)} {j : Nat} {c : TreeNode},
      l[j]? = some (some c) → pathLenAt s l j k = pathLen s c (k + 1) := by
  intro l
  induction l with
  | nil => intro j c h; simp at h
  | cons x r ih =>
    intro j c h
    cases j with
    | zero =>
      simp at h
      subst h
      rfl
    | succ j =>
      simp at h
      cases x <;> exact ih h

theorem pathNodeAt_get (s : Nat → Nat) (k d : Nat) :
    ∀ {l : List (Option TreeNode)} {j : Nat} {c : TreeNode},
      l[j]? = some (some c) → pathNodeAt s l j k d = pathNode s c k d := by
  intro l
  induction l with
  | nil => intro j c h; simp at h
  | cons x r ih =>
    intro j c h
    cases j with
    | zero =>
      simp at h
      subst h
      rfl
    | succ j =>
      simp at h
      cases x <;> exact ih h

theorem pathLen_leaf (s : Nat → Nat) (nm f a) (k : Nat) :
    pathLen s (.mk nm f a []) k = k := rfl

theorem pathLen_cons (s : Nat → Nat) (nm f a) {x r c} (k : Nat)
    (hc : (x :: r)[s k % (x :: r).length]? = some (some c)) :
    pathLen s (.mk nm f a (x :: r)) k = pathLen s c (k + 1) := by
  simp only [pathLen]
  exact pathLenAt_get s k hc

theorem pathNode_self (s : Nat → Nat) (t : TreeNode) (k : Nat) :
    pathNode s t k k = some t := by
  rw [pathNode.eq_def]
  simp

theorem pathNode_ne_leaf (s : Nat → Nat) (nm f a) {k d : Nat} (hne : k ≠ d) :
    pathNode s (.mk nm f a []) k d = none := by
  rw [pathNode.eq_def]
  simp [hne]

theorem pathNode_ne_cons (s : Nat → Nat) (nm f a) {x r c} {k d : Nat}
    (hne : k ≠ d)
    (hc : (x :: r)[s k % (x :: r).length]? = some (some c)) :
    pathNode s (.mk nm f a (x :: r)) k d = pathNode s c (k + 1) d := by
  rw [pathNode.eq_def]
  simp only [if_neg hne]
  exact pathNodeAt_get s (k + 1) d hc

/-- Main characterisation of the locator: under the arity invariant, and
unless it is called on a childless root, `select` returns exactly the
node sitting at the drawn depth on the sampled descent path, together
with that depth, which lies in `{1 .. L}` for the sampled path length
`L`. -/
theorem select_spec (s : Nat → Nat) :
    ∀ (n : Nat) (t : TreeNode) (k : Nat), sizeOf t ≤ n → wfT t = true →
      (t.args ≠ [] ∨ 1 ≤ k) →
      select s t k =
        some (pathNode s t k (drawnDepth s t k), drawnDepth s t k) ∧
      1 ≤ drawnDepth s t k ∧ drawnDepth s t k ≤ pathLen s t k ∧
      k ≤ pathLen s t k := by
  intro n
  induction n with
  | zero =>
    intro t k hsz
    rcases t with ⟨nm, f, a, l⟩
    simp [TreeNode.mk.sizeOf_spec] at hsz
  | succ n ih =>
    intro t k hsz hwf hk
    rcases t with ⟨nm, f, a, l⟩
    rcases hl : l with _ | ⟨x, rest⟩
    · subst hl
      have hk1 : 1 ≤ k := by
        rcases hk with h | h
        · simp [TreeNode.args] at h
        · exact h
      have hL : pathLen s (.mk nm f a []) k = k := rfl
      have hd : drawnDepth s (.mk nm f a []) k = s k % k + 1 := by
        unfold drawnDepth
        rw [hL]
      have hdk : s k % k < k := Nat.mod_lt _ hk1
      refine ⟨?_, by omega, by omega, by omega⟩
      rw [hd]
      simp only [select]
      rw [if_neg (by omega : ¬ k = 0)]
      by_cases he : s k % k + 1 = k
      · rw [if_pos he, he, pathNode_self]
      · rw [if_neg he, pathNode_ne_leaf s nm f a (fun hkk => he hkk.symm)]
    · subst hl
      have hlen : 0 < (x :: rest).length := by simp
      have hjlt : s k % (x :: rest).length < (x :: rest).length :=
        Nat.mod_lt _ hlen
      obtain ⟨c, hc, hwfc⟩ :=
        wfArgs_get (wfT_wfArgs hwf) (l := x :: rest) hjlt
      have hszc : sizeOf c ≤ n := by
        have h1 : sizeOf (some c) < sizeOf (x :: rest) :=
          List.sizeOf_lt_of_mem (List.getElem?_mem hc)
        have h2 : sizeOf c < sizeOf (some c) := by
          simp [Option.some.sizeOf_spec]
        rw [TreeNode.mk.sizeOf_spec] at hsz
        omega
      obtain ⟨ihsel, ih1, ih2, ih3⟩ :=
        ih c (k + 1) hszc hwfc (Or.inr (by omega))
      have hL := pathLen_cons s nm f a k hc
      have hD : drawnDepth s (.mk nm f a (x :: rest)) k =
          drawnDepth s c (k + 1) := by
        unfold drawnDepth
        rw [hL]
      refine ⟨?_, by omega, by omega, by omega⟩
      rw [hD]
      simp only [select]
      rw [selectAt_get s (k + 1) hc, ihsel]
      by_cases he : drawnDepth s c (k + 1) = k
      · rw [he]
        simp [pathNode_self]
      · simp only [if_neg he]
        rw [pathNode_ne_cons s nm f a (fun hkk => he hkk.symm) hc]

theorem pathNode_isSome (s : Nat → Nat) :
    ∀ (n : Nat) (t : TreeNode) (k d : Nat), sizeOf t ≤ n → wfT t = true →
      k ≤ d → d ≤ pathLen s t k → ∃ m, pathNode s t k d = some m := by
  intro n
  induction n with
  | zero =>
    intro t k d hsz
    rcases t with ⟨nm, f, a, l⟩
    simp [TreeNode.mk.sizeOf_spec] at hsz
  | succ n ih =>
    intro t k d hsz hwf hkd hdL
    by_cases he : k = d
    · subst he
      exact ⟨t, pathNode_self s t k⟩
    · rcases t with ⟨nm, f, a, l⟩
      rcases hl : l with _ | ⟨x, rest⟩
      · subst hl
        rw [pathLen_leaf s nm f a k] at hdL
        omega
      · subst hl
        have hlen : 0 < (x :: rest).length := by simp
        have hjlt : s k % (x :: rest).length < (x :: rest).length :=
          Nat.mod_lt _ hlen
        obtain ⟨c, hc, hwfc⟩ :=
          wfArgs_get (wfT_wfArgs hwf) (l := x :: rest) hjlt
        have hszc : sizeOf c ≤ n := by
          have h1 : sizeOf (some c) < sizeOf (x :: rest) :=
            List.sizeOf_lt_of_mem (List.getElem?_mem hc)
          have h2 : sizeOf c < sizeOf (some c) := by
            simp [Option.some.sizeOf_spec]
          rw [TreeNode.mk.sizeOf_spec] at hsz
          omega
        have hL := pathLen_cons s nm f a k hc
        rw [pathNode_ne_cons s nm f a he hc]
        exact ih c (k + 1) d hszc hwfc (by omega) (by omega)

/-- C2: on every tree whose root is a function node (and which satisfies
the arity invariant), the subtree locator walks one random root-to-leaf
path of some length `L ≥ 1`, draws the target depth
`t = randint(0, L-1) + 1` — uniform over `{1 .. L}` — at that path's
leaf, and returns exactly the node at depth `t` along that same path;
the returned depth is never 0 (the root) and the returned node is never
`None`. -/
theorem c2_select_returns_path_node (s : Nat → Nat) (t : TreeNode)
    (hwf : wfT t = true) (hroot : t.args ≠ []) :
    ∃ m, select s t 0 = some (some m, drawnDepth s t 0) ∧
      1 ≤ drawnDepth s t 0 ∧ drawnDepth s t 0 ≤ pathLen s t 0 ∧
      pathNode s t 0 (drawnDepth s t 0) = some m ∧
      drawnDepth s t 0 = s (pathLen s t 0) % pathLen s t 0 + 1 := by
  obtain ⟨hsel, h1, h2, _⟩ :=
    select_spec s (sizeOf t) t 0 le_rfl hwf (Or.inl hroot)
  obtain ⟨m, hm⟩ :=
    pathNode_isSome s (sizeOf t) t 0 (drawnDepth s t 0) le_rfl hwf
      (by omega) h2
  exact ⟨m, by rw [hsel, hm], h1, h2, hm, rfl⟩

/-- Witness for C2 at a concrete tree and draw stream. -/
theorem c2_select_returns_path_node_witness :
    wfT treeF = true ∧ treeF.args ≠ [] ∧
    ∃ m, select zeroS treeF 0 = some (some m, drawnDepth zeroS treeF 0) ∧
      1 ≤ drawnDepth zeroS treeF 0 ∧
      drawnDepth zeroS treeF 0 ≤ pathLen zeroS treeF 0 ∧
      pathNode zeroS treeF 0 (drawnDepth zeroS treeF 0) = some m ∧
      drawnDepth zeroS treeF 0 =
        zeroS (pathLen zeroS treeF 0) % pathLen zeroS treeF 0 + 1 :=
  ⟨by decide, by decide,
   c2_select_returns_path_node zeroS treeF (by decide) (by decide)⟩

/-- C1 (evaluation of the defect): on `treeF` every descent path has
length `L = 1`, so the locator's drawn target depth is always 1 — here
the locator run on the clone picks the leaf `leafOne` as the target —
yet `crossover` overwrites nothing: it returns the clone of the first
parent unchanged, with no node carrying any of `treeG`'s content.  The
leaf arm of `TreeNode.replace` lacks the `d == depth` self-overwrite
check that `TreeNode.select` has, so a draw equal to the path length
replaces no node at all. -/
theorem c1_crossover_skips_leaf_target :
    select zeroS treeF 0 = some (some leafOne, 1) ∧
    crossover zeroS zeroS treeF treeG = some treeF := by
  constructor
  · rfl
  · rfl

theorem mutate_pos_aux (tm : TreeManager) (method : Option GenMethod)
    (dep : Nat) (s g : Nat → Nat) :
    ∀ (n : Nat),
      (∀ (t : TreeNode) (depth : Nat) (t2 : TreeNode) (d : Nat),
        sizeOf t ≤ n →
        mutateGo tm method dep s g t depth = some (t2, d) → 1 ≤ d) ∧
      (∀ (l : List (Option TreeNode)) (j depth : Nat)
         (slots : List (Option TreeNode)) (d : Nat),
        sizeOf l ≤ n →
        mutateAt tm method dep s g l j depth = some (slots, d) → 1 ≤ d) := by
  intro n
  induction n with
  | zero =>
    constructor
    · intro t depth t2 d hsz
      rcases t with ⟨nm, f, a, l⟩
      simp [TreeNode.mk.sizeOf_spec] at hsz
    · intro l j depth slots d hsz
      rcases l with _ | ⟨x, rest⟩ <;> simp at hsz
  | succ n ih =>
    constructor
    · intro t depth t2 d hsz h
      rcases t with ⟨nm, f, a, l⟩
      rcases l with _ | ⟨x, rest⟩
      · simp only [mutateGo] at h
        split at h
        · cases h
        · split at h
          · split at h
            · cases h
            · split at h
              · cases h
              · rename_i heq
                cases h
                omega
          · cases h
            omega
      · simp only [mutateGo] at h
        split at h
        · rename_i slots2 d2 hAt
          have hd2 : 1 ≤ d2 := by
            refine ih.2 (x :: rest) _ _ slots2 d2 ?_ hAt
            rw [TreeNode.mk.sizeOf_spec] at hsz
            omega
          split at h
          · split at h
            · cases h
            · cases h
              omega
          · cases h
            omega
        · cases h
    · intro l j depth slots d hsz h
      rcases l with _ | ⟨x, rest⟩
      · simp [mutateAt] at h
      · cases j with
        | zero =>
          cases x with
          | none => simp [mutateAt] at h
          | some c =>
            simp only [mutateAt] at h
            split at h
            · rename_i c2 d2 hGo
              cases h
              refine ih.1 c _ _ _ ?_ hGo
              have h2 : sizeOf c < sizeOf (some c) := by
                simp [Option.some.sizeOf_spec]
              simp only [List.cons.sizeOf_spec] at hsz
              omega
            · cases h
        | succ j =>
          simp only [mutateAt] at h
          split at h
          · rename_i slots2 d2 hAt
            cases h
            refine ih.2 rest j _ _ _ ?_ hAt
            simp only [List.cons.sizeOf_spec] at hsz
            omega
          · cases h

theorem mutateAt_shape (tm : TreeManager) (method : Option GenMethod)
    (dep : Nat) (s g : Nat → Nat) :
    ∀ (l : List (Option TreeNode)) (j depth : Nat)
      (slots : List (Option TreeNode)) (d : Nat),
      mutateAt tm method dep s g l j depth = some (slots, d) →
      slots.length = l.length ∧ ∀ i, i ≠ j → slots[i]? = l[i]? := by
  intro l
  induction l with
  | nil => intro j depth slots d h; simp [mutateAt] at h
  | cons x rest ih =>
    intro j depth slots d h
    cases j with
    | zero =>
      cases x with
      | none => simp [mutateAt] at h
      | some c =>
        simp only [mutateAt] at h
        split at h
        · rename_i c2 d2 hGo
          cases h
          refine ⟨by simp, ?_⟩
          intro i hi
          cases i with
          | zero => exact absurd rfl hi
          | succ i => simp
        · cases h
    | succ j =>
      simp only [mutateAt] at h
      split at h
      · rename_i slots2 d2 hAt
        cases h
        obtain ⟨hlen, hsame⟩ := ih j depth _ _ hAt
        refine ⟨by simp [hlen], ?_⟩
        intro i hi
        cases i with
        | zero => simp
        | succ i =>
          have : i ≠ j := fun hh => hi (by rw [hh])
          simp [hsame i this]
      · cases h

/-- C10: mutating a tree whose root is a function node never changes
the root's name, behavior, argument index or arity (child count), and
every modification is confined to the subtree hanging off one child
slot — the locator's drawn depth is at least 1, so the regeneration
happens at depth ≥ 1. -/
theorem c10_mutate_preserves_root (tm : TreeManager)
    (method : Option GenMethod) (dep : Nat) (s g : Nat → Nat)
    (t t2 : TreeNode) (d : Nat) (hroot : t.args ≠ [])
    (h : mutateGo tm method dep s g t 0 = some (t2, d)) :
    t2.name = t.name ∧ t2.func = t.func ∧ t2.argIndex = t.argIndex ∧
    t2.args.length = t.args.length ∧ 1 ≤ d ∧
    ∃ j, j < t.args.length ∧ ∀ i, i ≠ j → t2.args[i]? = t.args[i]? := by
  rcases t with ⟨nm, f, a, l⟩
  rcases l with _ | ⟨x, rest⟩
  · simp [TreeNode.args] at hroot
  · simp only [mutateGo] at h
    split at h
    · rename_i slots2 d2 hAt
      have hd2 : 1 ≤ d2 :=
        (mutate_pos_aux tm method dep s g (sizeOf (x :: rest))).2
          (x :: rest) _ _ slots2 d2 le_rfl hAt
      split at h
      · omega
      · cases h
        obtain ⟨hlen, hsame⟩ :=
          mutateAt_shape tm method dep s g (x :: rest) _ _ _ _ hAt
        refine ⟨rfl, rfl, rfl, by simpa [TreeNode.args] using hlen, hd2,
          s 0 % (x :: rest).length, by simp [TreeNode.args, Nat.mod_lt], ?_⟩
        intro i hi
        simpa [TreeNode.args] using hsame i hi
    · cases h

/-- Witness for C10 at a concrete registry, tree and draw streams. -/
theorem c10_mutate_preserves_root_witness :
    treeF.args ≠ [] ∧
    mutateGo tmEx (some .grow) 1 zeroS (fun _ => 1) treeF 0 =
      some (mutEx, 1) ∧
    (mutEx.name = treeF.name ∧ mutEx.func = treeF.func ∧
     mutEx.argIndex = treeF.argIndex ∧
     mutEx.args.length = treeF.args.length ∧ 1 ≤ 1 ∧
     ∃ j, j < treeF.args.length ∧
       ∀ i, i ≠ j → mutEx.args[i]? = treeF.args[i]?) :=
  ⟨by decide, by rfl,
   c10_mutate_preserves_root tmEx (some .grow) 1 zeroS (fun _ => 1)
     treeF mutEx 1 (by decide) (by rfl)⟩

theorem wfTM_funcs {tm : TreeManager} (h : WfTM tm = true) :
    ∀ e ∈ tm.funcs, WfEntryF e = true := by
  rw [WfTM, Bool.and_eq_true, List.all_eq_true, List.all_eq_true] at h
  exact fun e he => h.1 e he

theorem wfTM_terms {tm : TreeManager} (h : WfTM tm = true) :
    ∀ e ∈ tm.terms, WfEntryT e = true := by
  rw [WfTM, Bool.and_eq_true, List.all_eq_true, List.all_eq_true] at h
  exact fun e he => h.2 e he

theorem entryNode_of_wfF {e : RegEntry} {c : TreeNode}
    (hE : WfEntryF e = true) (h : entryNode e = some c) :
    ∃ n fid ar, c = .mk n (some (fid, ar)) none (List.replicate ar none) ∧
      1 ≤ ar := by
  rcases e with ⟨nm, fo, io⟩
  cases fo with
  | some fa =>
    rcases fa with ⟨fid, ar⟩
    cases io with
    | none =>
      simp only [entryNode, newNode] at h
      cases h
      exact ⟨nm, fid, ar, rfl, by simpa [WfEntryF] using hE⟩
    | some i => simp [WfEntryF] at hE
  | none => simp [WfEntryF] at hE

theorem entryNode_of_wfT {e : RegEntry} {c : TreeNode}
    (hE : WfEntryT e = true) (h : entryNode e = some c) :
    wfT c = true ∧ c.args = [] := by
  rcases e with ⟨nm, fo, io⟩
  cases fo with
  | some fa =>
    rcases fa with ⟨fid, ar⟩
    cases ar with
    | zero =>
      cases io with
      | none =>
        simp only [entryNode, newNode] at h
        cases h
        exact ⟨rfl, rfl⟩
      | some i => simp [WfEntryT] at hE
    | succ ar => cases io <;> simp [WfEntryT] at hE
  | none =>
    cases io with
    | some i =>
      simp only [entryNode, newNode] at h
      cases h
      exact ⟨rfl, rfl⟩
    | none => simp [WfEntryT] at hE

theorem pickFuncNode_shape {tm : TreeManager} {r : Nat} {c : TreeNode}
    (hwf : WfTM tm = true) (h : pickFuncNode tm r = some c) :
    ∃ n fid ar, c = .mk n (some (fid, ar)) none (List.replicate ar none) ∧
      1 ≤ ar := by
  rw [pickFuncNode, pickFunc] at h
  cases he : tm.funcs[r % tm.funcs.length]? with
  | none => rw [he] at h; cases h
  | some e =>
    rw [he] at h
    have hE := wfTM_funcs hwf e (List.getElem?_mem he)
    exact entryNode_of_wfF hE h

theorem pickTermNode_wf {tm : TreeManager} {r : Nat} {c : TreeNode}
    (hwf : WfTM tm = true) (h : pickTermNode tm r = some c) :
    wfT c = true ∧ c.args = [] := by
  rw [pickTermNode, pickTerm] at h
  cases he : tm.terms[r % tm.terms.length]? with
  | none => rw [he] at h; cases h
  | some e =>
    rw [he] at h
    have hE := wfTM_terms hwf e (List.getElem?_mem he)
    exact entryNode_of_wfT hE h

theorem pickAllNode_shape {tm : TreeManager} {r : Nat} {c : TreeNode}
    (hwf : WfTM tm = true) (h : pickAllNode tm r = some c) :
    (wfT c = true ∧ c.args = []) ∨
    (∃ n fid ar, c = .mk n (some (fid, ar)) none (List.replicate ar none) ∧
      1 ≤ ar) := by
  rw [pickAllNode, pickAll] at h
  set l := tm.funcs ++ tm.terms with hl
  cases he : l[r % l.length]? with
  | none => rw [he] at h; cases h
  | some e =>
    rw [he] at h
    have hmem : e ∈ l := List.getElem?_mem he
    rw [hl, List.mem_append] at hmem
    rcases hmem with hm | hm
    · exact Or.inr (entryNode_of_wfF (wfTM_funcs hwf e hm) h)
    · exact Or.inl (entryNode_of_wfT (wfTM_terms hwf e hm) h)

theorem termSlots_spec {tm : TreeManager} {s : Nat → Nat}
    (hwf : WfTM tm = true) :
    ∀ (n k : Nat) (l : List (Option TreeNode)) (k2 : Nat),
      termSlots tm s n k = some (l, k2) →
      l.length = n ∧ wfArgs l = true := by
  intro n
  induction n with
  | zero =>
    intro k l k2 h
    simp only [termSlots] at h
    cases h
    exact ⟨rfl, rfl⟩
  | succ n ih =>
    intro k l k2 h
    simp only [termSlots] at h
    split at h
    · cases h
    · rename_i child hpick
      split at h
      · cases h
      · rename_i rest k3 hrest
        cases h
        obtain ⟨hlen, hwfa⟩ := ih (k + 1) rest _ hrest
        obtain ⟨hwfc, _⟩ := pickTermNode_wf hwf hpick
        exact ⟨by simp [hlen], by simp [wfArgs, hwfc, hwfa]⟩

theorem slotsGo_spec {tm : TreeManager} {s : Nat → Nat}
    {pick : TreeManager → Nat → Option TreeNode}
    {fill : TreeNode → Nat → Option (TreeNode × Nat)}
    (hfill : ∀ r child k2 child2 k3, pick tm r = some child →
      fill child k2 = some (child2, k3) → wfT child2 = true) :
    ∀ (n k : Nat) (l : List (Option TreeNode)) (k2 : Nat),
      slotsGo tm s pick fill n k = some (l, k2) →
      l.length = n ∧ wfArgs l = true := by
  intro n
  induction n with
  | zero =>
    intro k l k2 h
    simp only [slotsGo] at h
    cases h
    exact ⟨rfl, rfl⟩
  | succ n ih =>
    intro k l k2 h
    simp only [slotsGo] at h
    split at h
    · cases h
    · rename_i child hpick
      split at h
      · cases h
      · rename_i child2 k3 hf
        split at h
        · cases h
        · rename_i rest k4 hrest
          cases h
          obtain ⟨hlen, hwfa⟩ := ih k3 rest _ hrest
          have hwfc := hfill _ child _ child2 k3 hpick hf
          exact ⟨by simp [hlen], by simp [wfArgs, hwfc, hwfa]⟩

theorem growSlots_spec {tm : TreeManager} {s : Nat → Nat}
    (hwf : WfTM tm = true) :
    ∀ (d n k : Nat) (l : List (Option TreeNode)) (k2 : Nat),
      growSlots tm s d n k = some (l, k2) →
      l.length = n ∧ wfArgs l = true := by
  intro d
  induction d with
  | zero =>
    intro n k l k2 h
    simp only [growSlots] at h
    exact termSlots_spec hwf n k l k2 h
  | succ d ih =>
    intro n k l k2 h
    simp only [growSlots] at h
    refine slotsGo_spec ?_ n k l k2 h
    intro r child kk child2 k3 hpick hf
    cases hg : growSlots tm s d child.args.length kk with
    | none => rw [hg] at hf; cases hf
    | some p =>
      rw [hg] at hf
      rcases p with ⟨cargs, k4⟩
      simp only [Option.map_some'] at hf
      cases hf
      obtain ⟨hlen, hwfa⟩ := ih child.args.length kk cargs _ hg
      rcases pickAllNode_shape hwf hpick with ⟨hwfc, hargs⟩ |
        ⟨nm, fid, ar, hceq, har⟩
      · have hnil : cargs = [] :=
          List.eq_nil_of_length_eq_zero (by rw [hlen, hargs]; rfl)
        subst hnil
        rcases child with ⟨cn, cf, ca, cl⟩
        simp only [TreeNode.args] at hargs
        subst hargs
        exact hwfc
      · subst hceq
        simp only [TreeNode.args, List.length_replicate] at hlen
        simpa [TreeNode.setArgs, wfT, hlen] using hwfa

theorem fullSlots_spec {tm : TreeManager} {s : Nat → Nat}
    (hwf : WfTM tm = true) :
    ∀ (d n k : Nat) (l : List (Option TreeNode)) (k2 : Nat),
      fullSlots tm s d n k = some (l, k2) →
      l.length = n ∧ wfArgs l = true := by
  intro d
  induction d with
  | zero =>
    intro n k l k2 h
    simp only [fullSlots] at h
    exact termSlots_spec hwf n k l k2 h
  | succ d ih =>
    intro n k l k2 h
    simp only [fullSlots] at h
    refine slotsGo_spec ?_ n k l k2 h
    intro r child kk child2 k3 hpick hf
    cases hg : fullSlots tm s d child.args.length kk with
    | none => rw [hg] at hf; cases hf
    | some p =>
      rw [hg] at hf
      rcases p with ⟨cargs, k4⟩
      simp only [Option.map_some'] at hf
      cases hf
      obtain ⟨hlen, hwfa⟩ := ih child.args.length kk cargs _ hg
      obtain ⟨nm, fid, ar, hceq, har⟩ := pickFuncNode_shape hwf hpick
      subst hceq
      simp only [TreeNode.args, List.length_replicate] at hlen
      simpa [TreeNode.setArgs, wfT, hlen] using hwfa

theorem treeGen_wf {tm : TreeManager} {method : Option GenMethod}
    {depth : Nat} {t : TreeNode} {s : Nat → Nat} {k : Nat} {t2 : TreeNode}
    {k2 : Nat} (hwf : WfTM tm = true) (ht : arityOkB t = true)
    (h : treeGen tm method depth t s k = some (t2, k2)) : wfT t2 = true := by
  rw [treeGen.eq_def] at h
  split at h
  · cases h
  · split at h
    · cases h
    · rcases t with ⟨nm, fo, io, l⟩
      rcases fo with _ | ⟨fid, ar⟩
      · simp [arityOkB] at ht
      · rcases io with _ | i
        · have hlar : l.length = ar := by simpa [arityOkB] using ht
          split at h
          · cases hg : growSlots tm s depth
              (TreeNode.mk nm (some (fid, ar)) none l).args.length k with
            | none => rw [hg] at h; cases h
            | some p =>
              rw [hg] at h
              rcases p with ⟨slots, k3⟩
              simp only [Option.map_some'] at h
              cases h
              obtain ⟨hlen, hwfa⟩ :=
                growSlots_spec hwf depth _ k slots _ hg
              simp only [TreeNode.args] at hlen
              simpa [TreeNode.setArgs, wfT, hlen, hlar] using hwfa
          · cases hg : fullSlots tm s depth
              (TreeNode.mk nm (some (fid, ar)) none l).args.length k with
            | none => rw [hg] at h; cases h
            | some p =>
              rw [hg] at h
              rcases p with ⟨slots, k3⟩
              simp only [Option.map_some'] at h
              cases h
              obtain ⟨hlen, hwfa⟩ :=
                fullSlots_spec hwf depth _ k slots _ hg
              simp only [TreeNode.args] at hlen
              simpa [TreeNode.setArgs, wfT, hlen, hlar] using hwfa
          · cases h
        · simp [arityOkB] at ht

theorem generate_wf {tm : TreeManager} {method : Option GenMethod}
    {depth : Nat} {s : Nat → Nat} {k : Nat} {t : TreeNode} {k2 : Nat}
    (hwf : WfTM tm = true) (h : generate tm method depth s k = some (t, k2)) :
    wfT t = true := by
  rw [generate] at h
  cases hp : pickFuncNode tm (s k) with
  | none => rw [hp] at h; cases h
  | some root =>
    rw [hp] at h
    obtain ⟨n, fid, ar, hre, har⟩ := pickFuncNode_shape hwf hp
    refine treeGen_wf hwf ?_ h
    subst hre
    simp [arityOkB]

theorem select_wf (s : Nat → Nat) :
    ∀ (n : Nat) (t : TreeNode) (k : Nat) (m : TreeNode) (d : Nat),
      sizeOf t ≤ n → wfT t = true →
      select s t k = some (some m, d) → wfT m = true := by
  intro n
  induction n with
  | zero =>
    intro t k m d hsz
    rcases t with ⟨nm, f, a, l⟩
    simp [TreeNode.mk.sizeOf_spec] at hsz
  | succ n ih =>
    intro t k m d hsz hwf h
    rcases t with ⟨nm, f, a, l⟩
    rcases l with _ | ⟨x, rest⟩
    · simp only [select] at h
      split at h
      · cases h
      · split at h
        · cases h
          exact hwf
        · simp at h
    · have hlen : 0 < (x :: rest).length := by simp
      have hjlt : s k % (x :: rest).length < (x :: rest).length :=
        Nat.mod_lt _ hlen
      obtain ⟨c, hc, hwfc⟩ :=
        wfArgs_get (wfT_wfArgs hwf) (l := x :: rest) hjlt
      have hszc : sizeOf c ≤ n := by
        have h1 : sizeOf (some c) < sizeOf (x :: rest) :=
          List.sizeOf_lt_of_mem (List.getElem?_mem hc)
        have h2 : sizeOf c < sizeOf (some c) := by
          simp [Option.some.sizeOf_spec]
        rw [TreeNode.mk.sizeOf_spec] at hsz
        omega
      simp only [select] at h
      rw [selectAt_get s (k + 1) hc] at h
      split at h
      · rename_i node dd hsel
        split at h
        · cases h
          exact hwf
        · cases h
          exact ih c (k + 1) m _ hszc hwfc hsel
      · cases h

theorem wfT_fields (t : TreeNode) :
    wfT (.mk t.name t.func t.argIndex t.args) = wfT t := by
  rcases t with ⟨nm, f, a, l⟩
  rfl

theorem replace_wf_aux (s : Nat → Nat) (donor : Option TreeNode)
    (hdn : ∀ dn, donor = some dn → wfT dn = true) :
    ∀ (n : Nat),
      (∀ (t : TreeNode) (depth : Nat) (t2 : TreeNode) (d : Nat),
        sizeOf t ≤ n → wfT t = true →
        replaceGo s donor t depth = some (t2, d) → wfT t2 = true) ∧
      (∀ (l : List (Option TreeNode)) (j depth : Nat)
         (slots : List (Option TreeNode)) (d : Nat),
        sizeOf l ≤ n → wfArgs l = true →
        replaceAt s donor l j depth = some (slots, d) →
        wfArgs slots = true ∧ slots.length = l.length) := by
  intro n
  induction n with
  | zero =>
    constructor
    · intro t depth t2 d hsz
      rcases t with ⟨nm, f, a, l⟩
      simp [TreeNode.mk.sizeOf_spec] at hsz
    · intro l j depth slots d hsz
      rcases l with _ | ⟨x, rest⟩ <;> simp at hsz
  | succ n ih =>
    constructor
    · intro t depth t2 d hsz hwf h
      rcases t with ⟨nm, f, a, l⟩
      rcases l with _ | ⟨x, rest⟩
      · simp only [replaceGo] at h
        split at h
        · cases h
        · cases h
          exact hwf
      · simp only [replaceGo] at h
        split at h
        · rename_i slots2 d2 hAt
          have hsub : wfArgs slots2 = true ∧
              slots2.length = (x :: rest).length := by
            refine ih.2 (x :: rest) _ _ slots2 d2 ?_ (wfT_wfArgs hwf) hAt
            rw [TreeNode.mk.sizeOf_spec] at hsz
            omega
          split at h
          · cases hdonor : donor with
            | none => rw [hdonor] at h; cases h
            | some dn =>
              rw [hdonor] at h
              cases h
              have hw := hdn dn hdonor
              rcases dn with ⟨dnn, dnf, dna, dnl⟩
              exact hw
          · cases h
            rcases f with _ | ⟨fid, ar⟩
            · rcases a with _ | i
              · simp [wfT] at hwf
              · simp [wfT] at hwf
            · rcases a with _ | i
              · rw [wfT, Bool.and_eq_true] at hwf ⊢
                refine ⟨?_, hsub.1⟩
                rw [hsub.2]
                exact hwf.1
              · simp [wfT] at hwf
        · cases h
    · intro l j depth slots d hsz hwfa h
      rcases l with _ | ⟨x, rest⟩
      · simp [replaceAt] at h
      · cases j with
        | zero =>
          cases x with
          | none => simp [wfArgs] at hwfa
          | some c =>
            rw [wfArgs, Bool.and_eq_true] at hwfa
            simp only [replaceAt] at h
            split at h
            · rename_i c2 d2 hGo
              cases h
              have hw := by
                refine ih.1 c _ c2 _ ?_ hwfa.1 hGo
                simp only [List.cons.sizeOf_spec, Option.some.sizeOf_spec] at hsz
                omega
              exact ⟨by simp [wfArgs, hw, hwfa.2], by simp⟩
            · cases h
        | succ j =>
          simp only [replaceAt] at h
          split at h
          · rename_i slots2 d2 hAt
            cases h
            have hrest : wfArgs rest = true := by
              cases x with
              | none => simp [wfArgs] at hwfa
              | some c =>
                rw [wfArgs, Bool.and_eq_true] at hwfa
                exact hwfa.2
            have hsub := by
              refine ih.2 rest j _ slots2 _ ?_ hrest hAt
              simp only [List.cons.sizeOf_spec] at hsz
              omega
            cases x with
            | none => simp [wfArgs] at hwfa
            | some c =>
              rw [wfArgs, Bool.and_eq_true] at hwfa
              exact ⟨by simp [wfArgs, hwfa.1, hsub.1], by simp [hsub.2]⟩
          · cases h

theorem mutate_wf_aux (tm : TreeManager) (method : Option GenMethod)
    (dep : Nat) (s g : Nat → Nat) (hwf : WfTM tm = true) :
    ∀ (n : Nat),
      (∀ (t : TreeNode) (depth : Nat) (t2 : TreeNode) (d : Nat),
        sizeOf t ≤ n → wfT t = true →
        mutateGo tm method dep s g t depth = some (t2, d) → wfT t2 = true) ∧
      (∀ (l : List (Option TreeNode)) (j depth : Nat)
         (slots : List (Option TreeNode)) (d : Nat),
        sizeOf l ≤ n → wfArgs l = true →
        mutateAt tm method dep s g l j depth = some (slots, d) →
        wfArgs slots = true ∧ slots.length = l.length) := by
  intro n
  induction n with
  | zero =>
    constructor
    · intro t depth t2 d hsz
      rcases t with ⟨nm, f, a, l⟩
      simp [TreeNode.mk.sizeOf_spec] at hsz
    · intro l j depth slots d hsz
      rcases l with _ | ⟨x, rest⟩ <;> simp at hsz
  | succ n ih =>
    constructor
    · intro t depth t2 d hsz hwft h
      rcases t with ⟨nm, f, a, l⟩
      rcases l with _ | ⟨x, rest⟩
      · simp only [mutateGo] at h
        split at h
        · cases h
        · split at h
          · split at h
            · cases h
            · rename_i fresh hpick
              split at h
              · cases h
              · rename_i t3 k3 hgen
                cases h
                obtain ⟨n2, fid, ar, hre, har⟩ := pickFuncNode_shape hwf hpick
                refine treeGen_wf hwf ?_ hgen
                subst hre
                simp [arityOkB]
          · cases h
            exact hwft
      · simp only [mutateGo] at h
        split at h
        · rename_i slots2 d2 hAt
          have hsub : wfArgs slots2 = true ∧
              slots2.length = (x :: rest).length := by
            refine ih.2 (x :: rest) _ _ slots2 d2 ?_ (wfT_wfArgs hwft) hAt
            rw [TreeNode.mk.sizeOf_spec] at hsz
            omega
          split at h
          · split at h
            · cases h
            · rename_i t3 k3 hgen
              cases h
              refine treeGen_wf hwf ?_ hgen
              rcases f with _ | ⟨fid, ar⟩
              · rcases a with _ | i <;> simp [wfT] at hwft
              · rcases a with _ | i
                · rw [wfT, Bool.and_eq_true] at hwft
                  simpa [arityOkB] using hwft.1
                · simp [wfT] at hwft
          · cases h
            rcases f with _ | ⟨fid, ar⟩
            · rcases a with _ | i <;> simp [wfT] at hwft
            · rcases a with _ | i
              · rw [wfT, Bool.and_eq_true] at hwft ⊢
                refine ⟨?_, hsub.1⟩
                rw [hsub.2]
                exact hwft.1
              · simp [wfT] at hwft
        · cases h
    · intro l j depth slots d hsz hwfa h
      rcases l with _ | ⟨x, rest⟩
      · simp [mutateAt] at h
      · cases j with
        | zero =>
          cases x with
          | none => simp [wfArgs] at hwfa
          | some c =>
            rw [wfArgs, Bool.and_eq_true] at hwfa
            simp only [mutateAt] at h
            split at h
            · rename_i c2 d2 hGo
              cases h
              have hw := by
                refine ih.1 c _ c2 _ ?_ hwfa.1 hGo
                simp only [List.cons.sizeOf_spec, Option.some.sizeOf_spec] at hsz
                omega
              exact ⟨by simp [wfArgs, hw, hwfa.2], by simp⟩
            · cases h
        | succ j =>
          simp only [mutateAt] at h
          split at h
          · rename_i slots2 d2 hAt
            cases h
            have hrest : wfArgs rest = true := by
              cases x with
              | none => simp [wfArgs] at hwfa
              | some c =>
                rw [wfArgs, Bool.and_eq_true] at hwfa
                exact hwfa.2
            have hsub := by
              refine ih.2 rest j _ slots2 _ ?_ hrest hAt
              simp only [List.cons.sizeOf_spec] at hsz
              omega
            cases x with
            | none => simp [wfArgs] at hwfa
            | some c =>
              rw [wfArgs, Bool.and_eq_true] at hwfa
              exact ⟨by simp [wfArgs, hwfa.1, hsub.1], by simp [hsub.2]⟩
          · cases h

/-- C3: the arity invariant — every node's child count equals its
declared arity and every slot holds an actual node, recursively — holds
for every tree produced by `generate`, is preserved by `mutate`, and
holds for every tree produced by `crossover` of two invariant-satisfying
parents, over any well-formed registry and any random draws. -/
theorem c3_arity_invariant (tm : TreeManager) (method : Option GenMethod)
    (depth : Nat) (s g s1 s2 : Nat → Nat) (k : Nat) (hwf : WfTM tm = true) :
    (∀ (t : TreeNode) (k2 : Nat),
      generate tm method depth s k = some (t, k2) → wfT t = true) ∧
    (∀ (t0 t1 : TreeNode), wfT t0 = true →
      mutate tm method depth s g t0 = some t1 → wfT t1 = true) ∧
    (∀ (ta tb tc : TreeNode), wfT ta = true → wfT tb = true →
      crossover s1 s2 ta tb = some tc → wfT tc = true) := by
  refine ⟨?_, ?_, ?_⟩
  · intro t k2 h
    exact generate_wf hwf h
  · intro t0 t1 hwf0 h
    rw [mutate] at h
    cases hm : mutateGo tm method depth s g t0 0 with
    | none => rw [hm] at h; cases h
    | some p =>
      rw [hm] at h
      rcases p with ⟨t2, d⟩
      simp only [Option.map_some'] at h
      cases h
      exact (mutate_wf_aux tm method depth s g hwf (sizeOf t0)).1 t0 0 _ d
        le_rfl hwf0 hm
  · intro ta tb tc hwa hwb h
    rw [crossover] at h
    cases hs : select s1 tb 0 with
    | none => rw [hs] at h; cases h
    | some p =>
      rw [hs] at h
      rcases p with ⟨donor, dd⟩
      dsimp only at h
      cases hr : replaceGo s2 donor ta 0 with
      | none => rw [hr] at h; cases h
      | some q =>
        rw [hr] at h
        rcases q with ⟨t3, d3⟩
        dsimp only at h
        cases h
        refine (replace_wf_aux s2 donor ?_ (sizeOf ta)).1 ta 0 _ d3
          le_rfl hwa hr
        intro dn hdneq
        subst hdneq
        exact select_wf s1 (sizeOf tb) tb 0 dn dd le_rfl hwb hs

/-- Witness for C3 at a concrete registry, method, depth and draws. -/
theorem c3_arity_invariant_witness :
    WfTM tmEx = true ∧
    ((∀ (t : TreeNode) (k2 : Nat),
       generate tmEx (some .grow) 2 zeroS 0 = some (t, k2) → wfT t = true) ∧
     (∀ (t0 t1 : TreeNode), wfT t0 = true →
       mutate tmEx (some .grow) 2 zeroS zeroS t0 = some t1 → wfT t1 = true) ∧
     (∀ (ta tb tc : TreeNode), wfT ta = true → wfT tb = true →
       crossover zeroS zeroS ta tb = some tc → wfT tc = true)) :=
  ⟨by decide,
   c3_arity_invariant tmEx (some .grow) 2 zeroS zeroS zeroS zeroS 0 (by decide)⟩

theorem termSlots_mem {tm : TreeManager} {s : Nat → Nat} :
    ∀ (n k : Nat) (l : List (Option TreeNode)) (k2 : Nat),
      termSlots tm s n k = some (l, k2) →
      ∀ c, some c ∈ l → ∃ r, pickTermNode tm r = some c := by
  intro n
  induction n with
  | zero =>
    intro k l k2 h c hc
    simp only [termSlots] at h
    cases h
    simp at hc
  | succ n ih =>
    intro k l k2 h c hc
    simp only [termSlots] at h
    split at h
    · cases h
    · rename_i child hpick
      split at h
      · cases h
      · rename_i rest k3 hrest
        cases h
        rcases List.mem_cons.mp hc with he | hm
        · cases he
          exact ⟨s k, hpick⟩
        · exact ih (k + 1) rest _ hrest c hm

theorem slotsGo_mem {tm : TreeManager} {s : Nat → Nat}
    {pick : TreeManager → Nat → Option TreeNode}
    {fill : TreeNode → Nat → Option (TreeNode × Nat)} :
    ∀ (n k : Nat) (l : List (Option TreeNode)) (k2 : Nat),
      slotsGo tm s pick fill n k = some (l, k2) →
      ∀ c, some c ∈ l → ∃ r child k3 k4, pick tm r = some child ∧
        fill child k3 = some (c, k4) := by
  intro n
  induction n with
  | zero =>
    intro k l k2 h c hc
    simp only [slotsGo] at h
    cases h
    simp at hc
  | succ n ih =>
    intro k l k2 h c hc
    simp only [slotsGo] at h
    split at h
    · cases h
    · rename_i child hpick
      split at h
      · cases h
      · rename_i child2 k3 hf
        split at h
        · cases h
        · rename_i rest k4 hrest
          cases h
          rcases List.mem_cons.mp hc with he | hm
          · cases he
            exact ⟨s k, child, k + 1, k3, hpick, hf⟩
          · exact ih k3 rest _ hrest c hm

theorem leavesExactArgs_of_mem {l : List (Option TreeNode)} {d : Nat}
    (h : ∀ c, some c ∈ l → leavesExact c d = true) :
    leavesExactArgs l d = true := by
  induction l with
  | nil => rfl
  | cons x rest ih =>
    cases x with
    | none =>
      simp only [leavesExactArgs]
      exact ih (fun c hc => h c (List.mem_cons_of_mem _ hc))
    | some c =>
      simp only [leavesExactArgs, Bool.and_eq_true]
      exact ⟨h c (List.mem_cons_self _ _),
        ih (fun c2 hc => h c2 (List.mem_cons_of_mem _ hc))⟩

theorem leavesWithinArgs_of_mem {l : List (Option TreeNode)} {d : Nat}
    (h : ∀ c, some c ∈ l → leavesWithin c d = true) :
    leavesWithinArgs l d = true := by
  induction l with
  | nil => rfl
  | cons x rest ih =>
    cases x with
    | none =>
      simp only [leavesWithinArgs]
      exact ih (fun c hc => h c (List.mem_cons_of_mem _ hc))
    | some c =>
      simp only [leavesWithinArgs, Bool.and_eq_true]
      exact ⟨h c (List.mem_cons_self _ _),
        ih (fun c2 hc => h c2 (List.mem_cons_of_mem _ hc))⟩

theorem fullSlots_exact {tm : TreeManager} {s : Nat → Nat}
    (hwf : WfTM tm = true) :
    ∀ (d n k : Nat) (l : List (Option TreeNode)) (k2 : Nat),
      fullSlots tm s d n k = some (l, k2) → leavesExactArgs l d = true := by
  intro d
  induction d with
  | zero =>
    intro n k l k2 h
    simp only [fullSlots] at h
    refine leavesExactArgs_of_mem (fun c hc => ?_)
    obtain ⟨r, hr⟩ := termSlots_mem n k l k2 h c hc
    obtain ⟨_, hargs⟩ := pickTermNode_wf hwf hr
    rcases c with ⟨cn, cf, ca, cl⟩
    simp only [TreeNode.args] at hargs
    subst hargs
    rfl
  | succ d ih =>
    intro n k l k2 h
    simp only [fullSlots] at h
    refine leavesExactArgs_of_mem (fun c hc => ?_)
    obtain ⟨r, child, k3, k4, hpick, hf⟩ := slotsGo_mem n k l k2 h c hc
    cases hg : fullSlots tm s d child.args.length k3 with
    | none => rw [hg] at hf; cases hf
    | some p =>
      rw [hg] at hf
      rcases p with ⟨cargs, k5⟩
      simp only [Option.map_some'] at hf
      cases hf
      obtain ⟨nm, fid, ar, hceq, har⟩ := pickFuncNode_shape hwf hpick
      subst hceq
      obtain ⟨hlen, _⟩ := fullSlots_spec hwf d _ k3 cargs _ hg
      simp only [TreeNode.args, List.length_replicate] at hlen
      rcases hcargs : cargs with _ | ⟨y, ys⟩
      · subst hcargs
        simp at hlen
        omega
      · subst hcargs
        simp only [TreeNode.setArgs, leavesExact]
        exact ih _ k3 (y :: ys) _ hg

theorem growSlots_within {tm : TreeManager} {s : Nat → Nat}
    (hwf : WfTM tm = true) :
    ∀ (d n k : Nat) (l : List (Option TreeNode)) (k2 : Nat),
      growSlots tm s d n k = some (l, k2) → leavesWithinArgs l d = true := by
  intro d
  induction d with
  | zero =>
    intro n k l k2 h
    simp only [growSlots] at h
    refine leavesWithinArgs_of_mem (fun c hc => ?_)
    obtain ⟨r, hr⟩ := termSlots_mem n k l k2 h c hc
    obtain ⟨_, hargs⟩ := pickTermNode_wf hwf hr
    rcases c with ⟨cn, cf, ca, cl⟩
    simp only [TreeNode.args] at hargs
    subst hargs
    rfl
  | succ d ih =>
    intro n k l k2 h
    simp only [growSlots] at h
    refine leavesWithinArgs_of_mem (fun c hc => ?_)
    obtain ⟨r, child, k3, k4, hpick, hf⟩ := slotsGo_mem n k l k2 h c hc
    cases hg : growSlots tm s d child.args.length k3 with
    | none => rw [hg] at hf; cases hf
    | some p =>
      rw [hg] at hf
      rcases p with ⟨cargs, k5⟩
      simp only [Option.map_some'] at hf
      cases hf
      have hwia := ih _ k3 cargs _ hg
      rcases child with ⟨cn, cf, ca, cl⟩
      rcases hcargs : cargs with _ | ⟨y, ys⟩
      · subst hcargs
        rfl
      · subst hcargs
        simp only [TreeNode.setArgs, leavesWithin]
        exact hwia

/-- C4 counterexample: with a registry holding one binary function and
two terminals, `generate(full, 1)` yields a tree whose leaves do NOT all
lie at depth 1 — they all lie at depth 2 — and `generate(grow, 1)`
yields a tree with a leaf beyond depth 1. -/
theorem c4_depth_counterexample :
    (generate tmEx (some .full) 1 zeroS 0).map
      (fun p => leavesExact p.1 1) = some false ∧
    (generate tmEx (some .full) 1 zeroS 0).map
      (fun p => leavesExact p.1 2) = some true ∧
    (generate tmEx (some .grow) 1 zeroS 0).map
      (fun p => leavesWithin p.1 1) = some false := by
  refine ⟨?_, ?_, ?_⟩ <;> rfl

/-- C4 as amended: over a well-formed registry and for any depth bound
`D ≥ 1` and any draws, every leaf of a `full`-generated tree lies at
exactly depth `D + 1` (one more than the configured bound), and every
leaf of a `grow`-generated tree lies at depth at most `D + 1`. -/
theorem c4_generation_depth_amended (tm : TreeManager) (D : Nat)
    (s : Nat → Nat) (k : Nat) (hwf : WfTM tm = true) (hD : 1 ≤ D) :
    (∀ (t : TreeNode) (k2 : Nat),
      generate tm (some .full) D s k = some (t, k2) →
      leavesExact t (D + 1) = true) ∧
    (∀ (t : TreeNode) (k2 : Nat),
      generate tm (some .grow) D s k = some (t, k2) →
      leavesWithin t (D + 1) = true) := by
  constructor
  · intro t k2 h
    rw [generate] at h
    cases hp : pickFuncNode tm (s k) with
    | none => rw [hp] at h; cases h
    | some root =>
      rw [hp] at h
      obtain ⟨nm, fid, ar, hre, har⟩ := pickFuncNode_shape hwf hp
      subst hre
      dsimp only at h
      rw [treeGen.eq_def] at h
      split at h
      · cases h
      · split at h
        · cases h
        · simp only at h
          cases hg : fullSlots tm s D
              (TreeNode.mk nm (some (fid, ar)) none
                (List.replicate ar none)).args.length (k + 1) with
          | none => rw [hg] at h; cases h
          | some p =>
            rw [hg] at h
            rcases p with ⟨slots, k3⟩
            simp only [Option.map_some'] at h
            cases h
            obtain ⟨hlen, _⟩ := fullSlots_spec hwf D _ _ slots _ hg
            have hex := fullSlots_exact hwf D _ _ slots _ hg
            simp only [TreeNode.args, List.length_replicate] at hlen
            rcases hsl : slots with _ | ⟨y, ys⟩
            · subst hsl
              simp at hlen
              omega
            · subst hsl
              simp only [TreeNode.setArgs, leavesExact]
              exact hex
  · intro t k2 h
    rw [generate] at h
    cases hp : pickFuncNode tm (s k) with
    | none => rw [hp] at h; cases h
    | some root =>
      rw [hp] at h
      obtain ⟨nm, fid, ar, hre, har⟩ := pickFuncNode_shape hwf hp
      subst hre
      dsimp only at h
      rw [treeGen.eq_def] at h
      split at h
      · cases h
      · split at h
        · cases h
        · simp only at h
          cases hg : growSlots tm s D
              (TreeNode.mk nm (some (fid, ar)) none
                (List.replicate ar none)).args.length (k + 1) with
          | none => rw [hg] at h; cases h
          | some p =>
            rw [hg] at h
            rcases p with ⟨slots, k3⟩
            simp only [Option.map_some'] at h
            cases h
            have hwi := growSlots_within hwf D _ _ slots _ hg
            rcases hsl : slots with _ | ⟨y, ys⟩
            · subst hsl
              rfl
            · subst hsl
              simp only [TreeNode.setArgs, leavesWithin]
              exact hwi

/-- Witness for the amended C4 at a concrete registry, depth and draws. -/
theorem c4_generation_depth_amended_witness :
    WfTM tmEx = true ∧ 1 ≤ 1 ∧
    ((∀ (t : TreeNode) (k2 : Nat),
       generate tmEx (some .full) 1 zeroS 0 = some (t, k2) →
       leavesExact t 2 = true) ∧
     (∀ (t : TreeNode) (k2 : Nat),
       generate tmEx (some .grow) 1 zeroS 0 = some (t, k2) →
       leavesWithin t 2 = true)) :=
  ⟨by decide, by decide,
   c4_generation_depth_amended tmEx 1 zeroS 0 (by decide) (by decide)⟩

/-- C5: evaluation semantics of `TreeNode.eval` — an argument-reference
node returns `args[index]` and fails (IndexError, modelled `none`) when
the index is out of range; a zero-arity behavior node invokes its
behavior on the empty argument list; a function node evaluates its
children left to right (`evalArgs` consing the results in child order,
stopping at the first failure) and then applies its behavior to the list
of results. -/
theorem c5_eval_semantics (F : Nat → List Int → Int) :
    (∀ (nm : String) (f : Option (Nat × Nat)) (i : Nat)
       (l : List (Option TreeNode)) (xs : List Int),
      evalT F (.mk nm f (some i) l) xs = xs[i]?) ∧
    (∀ (nm : String) (f : Option (Nat × Nat)) (i : Nat)
       (l : List (Option TreeNode)) (xs : List Int), xs.length ≤ i →
      evalT F (.mk nm f (some i) l) xs = none) ∧
    (∀ (nm : String) (fid : Nat) (xs : List Int),
      evalT F (.mk nm (some (fid, 0)) none []) xs = some (F fid [])) ∧
    (∀ (nm : String) (fid ar : Nat) (l : List (Option TreeNode))
       (xs : List Int),
      evalT F (.mk nm (some (fid, ar)) none l) xs =
        (evalArgs F l xs).map (F fid)) ∧
    (∀ (c : TreeNode) (rest : List (Option TreeNode)) (xs : List Int),
      evalArgs F (some c :: rest) xs =
        match evalT F c xs with
        | none => none
        | some v => (evalArgs F rest xs).map (v :: ·)) := by
  refine ⟨fun nm f i l xs => rfl, ?_, fun nm fid xs => rfl,
    fun nm fid ar l xs => rfl, fun c rest xs => rfl⟩
  intro nm f i l xs hlen
  show xs[i]? = none
  exact List.getElem?_eq_none hlen

/-- Witness for C5 at concrete nodes, argument vectors and environment. -/
theorem c5_eval_semantics_witness :
    evalT envEx (.mk "x" none (some 0) []) [5] = [(5 : Int)][0]? ∧
    evalT envEx (.mk "x" none (some 3) []) [5] = none ∧
    evalT envEx (.mk "1" (some (1, 0)) none []) [5] = some (envEx 1 []) ∧
    evalT envEx (.mk "f" (some (0, 2)) none [some leafOne, some leafTwo]) [5] =
      (evalArgs envEx [some leafOne, some leafTwo] [5]).map (envEx 0) :=
  ⟨(c5_eval_semantics envEx).1 "x" none 0 [] [5],
   (c5_eval_semantics envEx).2.1 "x" none 3 [] [5] (by decide),
   (c5_eval_semantics envEx).2.2.1 "1" 1 [5],
   (c5_eval_semantics envEx).2.2.2.1 "f" 0 2 [some leafOne, some leafTwo] [5]⟩

theorem dup_ids_aux :
    ∀ (n : Nat),
      (∀ (t : IdTree) (ctr : Nat), sizeOf t ≤ n →
        ctr ≤ (dupT ctr t).2 ∧
        ∀ i ∈ idsT (dupT ctr t).1, ctr ≤ i ∧ i < (dupT ctr t).2) ∧
      (∀ (l : List (Option IdTree)) (ctr : Nat), sizeOf l ≤ n →
        ctr ≤ (dupArgs ctr l).2 ∧
        ∀ i ∈ idsArgs (dupArgs ctr l).1, ctr ≤ i ∧ i < (dupArgs ctr l).2) := by
  intro n
  induction n with
  | zero =>
    constructor
    · intro t ctr hsz
      rcases t with ⟨o, nm, f, a, l⟩
      simp [IdTree.mk.sizeOf_spec] at hsz
    · intro l ctr hsz
      rcases l with _ | ⟨x, rest⟩ <;> simp at hsz
  | succ n ih =>
    constructor
    · intro t ctr hsz
      rcases t with ⟨o, nm, f, a, l⟩
      have hl : sizeOf l ≤ n := by
        rw [IdTree.mk.sizeOf_spec] at hsz
        omega
      obtain ⟨hle, hin⟩ := ih.2 l (ctr + 1) hl
      simp only [dupT, idsT]
      refine ⟨by omega, ?_⟩
      intro i hi
      rcases List.mem_cons.mp hi with he | hm
      · subst he
        exact ⟨le_rfl, by omega⟩
      · have := hin i hm
        omega
    · intro l ctr hsz
      rcases l with _ | ⟨x, rest⟩
      · simp only [dupArgs, idsArgs]
        exact ⟨le_rfl, by simp⟩
      · cases x with
        | none =>
          have hr : sizeOf rest ≤ n := by
            simp only [List.cons.sizeOf_spec] at hsz
            omega
          obtain ⟨hle, hin⟩ := ih.2 rest ctr hr
          simp only [dupArgs, idsArgs]
          exact ⟨hle, hin⟩
        | some c =>
          have hc : sizeOf c ≤ n := by
            simp only [List.cons.sizeOf_spec, Option.some.sizeOf_spec] at hsz
            omega
          have hr : sizeOf rest ≤ n := by
            simp only [List.cons.sizeOf_spec] at hsz
            omega
          obtain ⟨hle1, hin1⟩ := ih.1 c ctr hc
          obtain ⟨hle2, hin2⟩ := ih.2 rest (dupT ctr c).2 hr
          simp only [dupArgs, idsArgs]
          refine ⟨by omega, ?_⟩
          intro i hi
          rcases List.mem_append.mp hi with hm | hm
          · have := hin1 i hm
            omega
          · have := hin2 i hm
            omega

theorem replaceI_ids_aux (s : Nat → Nat) (donor : Option IdTree) :
    ∀ (n : Nat),
      (∀ (t : IdTree) (depth ctr : Nat) (t2 : IdTree) (d ctr2 : Nat),
        sizeOf t ≤ n →
        replaceGoI s donor t depth ctr = some (t2, d, ctr2) →
        ctr ≤ ctr2 ∧ ∀ i ∈ idsT t2, i ∈ idsT t ∨ (ctr ≤ i ∧ i < ctr2)) ∧
      (∀ (l : List (Option IdTree)) (j depth ctr : Nat)
         (slots : List (Option IdTree)) (d ctr2 : Nat),
        sizeOf l ≤ n →
        replaceAtI s donor l j depth ctr = some (slots, d, ctr2) →
        ctr ≤ ctr2 ∧
        ∀ i ∈ idsArgs slots, i ∈ idsArgs l ∨ (ctr ≤ i ∧ i < ctr2)) := by
  intro n
  induction n with
  | zero =>
    constructor
    · intro t depth ctr t2 d ctr2 hsz
      rcases t with ⟨o, nm, f, a, l⟩
      simp [IdTree.mk.sizeOf_spec] at hsz
    · intro l j depth ctr slots d ctr2 hsz
      rcases l with _ | ⟨x, rest⟩ <;> simp at hsz
  | succ n ih =>
    constructor
    · intro t depth ctr t2 d ctr2 hsz h
      rcases t with ⟨o, nm, f, a, l⟩
      rcases l with _ | ⟨x, rest⟩
      · simp only [replaceGoI] at h
        split at h
        · cases h
        · cases h
          exact ⟨le_rfl, fun i hi => Or.inl hi⟩
      · simp only [replaceGoI] at h
        split at h
        · rename_i slots2 d2 ctr3 hAt
          have hsub : ctr ≤ ctr3 ∧ ∀ i ∈ idsArgs slots2,
              i ∈ idsArgs (x :: rest) ∨ (ctr ≤ i ∧ i < ctr3) := by
            refine ih.2 (x :: rest) _ _ ctr slots2 d2 ctr3 ?_ hAt
            rw [IdTree.mk.sizeOf_spec] at hsz
            omega
          split at h
          · cases hdonor : donor with
            | none => rw [hdonor] at h; cases h
            | some dn =>
              rw [hdonor] at h
              cases h
              obtain ⟨hle, hin⟩ :=
                (dup_ids_aux (sizeOf dn.args)).2 dn.args ctr3 le_rfl
              refine ⟨by omega, ?_⟩
              intro i hi
              simp only [idsT] at hi
              rcases List.mem_cons.mp hi with he | hm
              · subst he
                exact Or.inl (by simp [idsT])
              · have := hin i hm
                exact Or.inr (by omega)
          · cases h
            refine ⟨hsub.1, ?_⟩
            intro i hi
            simp only [idsT] at hi ⊢
            rcases List.mem_cons.mp hi with he | hm
            · subst he
              exact Or.inl (List.mem_cons_self _ _)
            · rcases hsub.2 i hm with hin | hin
              · exact Or.inl (List.mem_cons_of_mem _ hin)
              · exact Or.inr hin
        · cases h
    · intro l j depth ctr slots d ctr2 hsz h
      rcases l with _ | ⟨x, rest⟩
      · simp [replaceAtI] at h
      · cases j with
        | zero =>
          cases x with
          | none => simp [replaceAtI] at h
          | some c =>
            simp only [replaceAtI] at h
            split at h
            · rename_i c2 d2 ctr3 hGo
              cases h
              have hsub : ctr ≤ ctr2 ∧ ∀ i ∈ idsT c2,
                  i ∈ idsT c ∨ (ctr ≤ i ∧ i < ctr2) := by
                refine ih.1 c _ ctr c2 _ _ ?_ hGo
                simp only [List.cons.sizeOf_spec, Option.some.sizeOf_spec] at hsz
                omega
              refine ⟨hsub.1, ?_⟩
              intro i hi
              simp only [idsArgs] at hi ⊢
              rcases List.mem_append.mp hi with hm | hm
              · rcases hsub.2 i hm with hin | hin
                · exact Or.inl (List.mem_append_left _ hin)
                · exact Or.inr hin
              · exact Or.inl (List.mem_append_right _ hm)
            · cases h
        | succ j =>
          simp only [replaceAtI] at h
          split at h
          · rename_i slots2 d2 ctr3 hAt
            cases h
            have hsub : ctr ≤ ctr2 ∧ ∀ i ∈ idsArgs slots2,
                i ∈ idsArgs rest ∨ (ctr ≤ i ∧ i < ctr2) := by
              refine ih.2 rest j _ ctr slots2 _ _ ?_ hAt
              simp only [List.cons.sizeOf_spec] at hsz
              omega
            refine ⟨hsub.1, ?_⟩
            intro i hi
            cases x with
            | none =>
              simp only [idsArgs] at hi ⊢
              rcases hsub.2 i hi with hin | hin
              · exact Or.inl hin
              · exact Or.inr hin
            | some c =>
              simp only [idsArgs] at hi ⊢
              rcases List.mem_append.mp hi with hm | hm
              · exact Or.inl (List.mem_append_left _ hm)
              · rcases hsub.2 i hm with hin | hin
                · exact Or.inl (List.mem_append_right _ hin)
                · exact Or.inr hin
          · cases h

/-- C6: crossover returns a tree that shares no node objects with
either parent.  Object identity is made explicit by `IdTree`; when every
identity in the parents lies below the allocation counter, every node of
the offspring carries a fresh identity (the clone of parent A is fully
fresh, and the overwrite deep-copies the donor subtree of parent B with
fresh identities), so no node object of A or B is reachable from the
result — the in-place writes of the Python code only ever hit clone
objects, leaving A and B unchanged, and later mutation of the offspring
cannot touch A or B. -/
theorem c6_crossover_shares_no_objects (s1 s2 : Nat → Nat) (a b : IdTree)
    (ctr : Nat) (t : IdTree) (ctr2 : Nat)
    (ha : ∀ i ∈ idsT a, i < ctr) (hb : ∀ i ∈ idsT b, i < ctr)
    (h : crossoverI s1 s2 a b ctr = some (t, ctr2)) :
    ∀ i ∈ idsT t, i ∉ idsT a ∧ i ∉ idsT b := by
  obtain ⟨hled, hind⟩ := (dup_ids_aux (sizeOf a)).1 a ctr le_rfl
  rw [crossoverI] at h
  cases hs : selectI s1 b 0 with
  | none => rw [hs] at h; cases h
  | some p =>
    rw [hs] at h
    rcases p with ⟨donor, dd⟩
    dsimp only at h
    cases hr : replaceGoI s2 donor (dupT ctr a).1 0 (dupT ctr a).2 with
    | none => rw [hr] at h; cases h
    | some q =>
      rw [hr] at h
      rcases q with ⟨t3, d3, c3⟩
      dsimp only at h
      cases h
      obtain ⟨hle2, hin2⟩ :=
        (replaceI_ids_aux s2 donor (sizeOf (dupT ctr a).1)).1
          (dupT ctr a).1 0 (dupT ctr a).2 _ d3 _ le_rfl hr
      intro i hi
      have hge : ctr ≤ i := by
        rcases hin2 i hi with hm | ⟨h1, h2⟩
        · exact (hind i hm).1
        · omega
      constructor
      · intro hcontra
        have := ha i hcontra
        omega
      · intro hcontra
        have := hb i hcontra
        omega

/-- Witness for C6 at concrete identity-annotated parents. -/
theorem c6_crossover_shares_no_objects_witness :
    (∀ i ∈ idsT idTreeF, i < 6) ∧ (∀ i ∈ idsT idTreeG, i < 6) ∧
    crossoverI zeroS zeroS idTreeF idTreeG 6 = some (idDupF, 9) ∧
    (∀ i ∈ idsT idDupF, i ∉ idsT idTreeF ∧ i ∉ idsT idTreeG) :=
  ⟨by decide, by decide, by rfl,
   c6_crossover_shares_no_objects zeroS zeroS idTreeF idTreeG 6 idDupF 9
     (by decide) (by decide) (by rfl)⟩

/-- C7 counterexample: configuring the unknown selection-strategy name
evolution does not fail at setup time — `Kernel.load_conf` accepts it —
and the RuntimeError is raised only at the first use of parent
selection. -/
theorem c7_unknown_strategy_counterexample :
    loadConf true confUnknownSel = .ok confUnknownSel ∧
    selectTreeK confUnknownSel popEx 0 0 zeroS =
      .error "invalid selection method" := by
  exact ⟨rfl, rfl⟩

/-- C7 as amended: an unknown selection strategy name passes setup
untouched — configuration loading validates only that the file is a
mapping — and every parent selection (the kernel's and the worker's)
then fails with RuntimeError at its point of use. -/
theorem c7_unknown_strategy_amended (c : Config)
    (pop : List (TreeNode × Rat)) (w1 w2 : Rat) (ts : Nat → Nat)
    (hn1 : c.selectMethod ≠ "fitness")
    (hn2 : c.selectMethod ≠ "tournament") :
    loadConf true c = .ok c ∧
    selectTreeK c pop w1 w2 ts = .error "invalid selection method" ∧
    selectTreeS c pop w1 w2 ts = .error "invalid selection method" := by
  have hsel : getSelectMethodK c = none := by
    simp [getSelectMethodK, hn1, hn2]
  exact ⟨rfl, by simp [selectTreeK, hsel], by simp [selectTreeS, hsel]⟩

/-- Witness for the amended C7 at a concrete configuration. -/
theorem c7_unknown_strategy_amended_witness :
    confUnknownSel.selectMethod ≠ "fitness" ∧
    confUnknownSel.selectMethod ≠ "tournament" ∧
    (loadConf true confUnknownSel = .ok confUnknownSel ∧
     selectTreeK confUnknownSel popEx 0 0 zeroS =
       .error "invalid selection method" ∧
     selectTreeS confUnknownSel popEx 0 0 zeroS =
       .error "invalid selection method") :=
  ⟨by decide, by decide,
   c7_unknown_strategy_amended confUnknownSel popEx 0 0 zeroS
     (by decide) (by decide)⟩

theorem insertDesc_length (x : TreeNode × Rat) :
    ∀ (l : List (TreeNode × Rat)), (insertDesc x l).length = l.length + 1 := by
  intro l
  induction l with
  | nil => rfl
  | cons y r ih =>
    simp only [insertDesc]
    split
    · rfl
    · simp [ih]

theorem sortDesc_length :
    ∀ (l : List (TreeNode × Rat)), (sortDesc l).length = l.length := by
  intro l
  induction l with
  | nil => rfl
  | cons x r ih => simp [sortDesc, insertDesc_length, ih]

theorem mapM_some_of_isSome {α β : Type} (f : α → Option β) :
    ∀ (li : List α), (∀ i ∈ li, ∃ y, f i = some y) →
      ∃ l, li.mapM f = some l ∧ l.length = li.length := by
  intro li
  induction li with
  | nil => intro _; exact ⟨[], rfl, rfl⟩
  | cons x rest ih =>
    intro h
    obtain ⟨y, hy⟩ := h x (List.mem_cons_self _ _)
    obtain ⟨l, hl, hlen⟩ := ih (fun i hi => h i (List.mem_cons_of_mem _ hi))
    refine ⟨y :: l, ?_, by simp [hlen]⟩
    rw [List.mapM_cons, hy, hl]
    rfl

/-- C8 counterexample: a tournament size of 5 over a population of 2
does not fail at the point of use — tournament selection samples with
replacement and silently succeeds. -/
theorem c8_tournament_size_counterexample :
    popEx.length = 2 ∧ confBigTournament.tournamentSize = 5 ∧
    selectTreeK confBigTournament popEx 0 0 zeroS = .ok (treeF, treeF) := by
  exact ⟨rfl, rfl, rfl⟩

/-- C8 as amended: with tournament selection configured and a non-empty
population, a tournament size below 2 fails at the point of use with an
IndexError (indexing the sorted tournament), while any tournament size
of at least 2 — including sizes exceeding the population, which are
drawn with replacement — silently succeeds and returns two
individuals. -/
theorem c8_tournament_size_amended (c : Config)
    (pop : List (TreeNode × Rat)) (w1 w2 : Rat) (ts : Nat → Nat)
    (hmeth : c.selectMethod = "tournament") (hpop : pop ≠ []) :
    (c.tournamentSize < 2 →
      selectTreeK c pop w1 w2 ts = .error "list index out of range") ∧
    (2 ≤ c.tournamentSize →
      ∃ t1 t2, selectTreeK c pop w1 w2 ts = .ok (t1, t2)) := by
  have hsel : getSelectMethodK c = some .tournament := by
    simp [getSelectMethodK, hmeth]
  have hlen : 0 < pop.length := List.length_pos.mpr hpop
  obtain ⟨l, hl, hllen⟩ :=
    mapM_some_of_isSome (fun i => pop[ts i % pop.length]?)
      (List.range c.tournamentSize)
      (fun i _ => by
        have : ts i % pop.length < pop.length := Nat.mod_lt _ hlen
        exact ⟨pop[ts i % pop.length], List.getElem?_eq_getElem this⟩)
  have hslen : (sortDesc l).length = c.tournamentSize := by
    rw [sortDesc_length, hllen, List.length_range]
  constructor
  · intro hsmall
    simp only [selectTreeK, hsel, hl]
    rcases hs0 : (sortDesc l)[0]? with _ | p1
    · rfl
    · rcases hs1 : (sortDesc l)[1]? with _ | p2
      · rfl
      · have h1 : 1 < (sortDesc l).length := by
          have := List.getElem?_eq_some_iff.mp hs1
          obtain ⟨hh, _⟩ := this
          exact hh
        omega
  · intro hbig
    have h0 : 0 < (sortDesc l).length := by omega
    have h1 : 1 < (sortDesc l).length := by omega
    refine ⟨(sortDesc l)[0].1, (sortDesc l)[1].1, ?_⟩
    simp only [selectTreeK, hsel, hl]
    rw [List.getElem?_eq_getElem h0, List.getElem?_eq_getElem h1]

/-- Witness for the amended C8 at a concrete configuration and
population. -/
theorem c8_tournament_size_amended_witness :
    confBigTournament.selectMethod = "tournament" ∧ popEx ≠ [] ∧
    ((confBigTournament.tournamentSize < 2 →
       selectTreeK confBigTournament popEx 0 0 zeroS =
         .error "list index out of range") ∧
     (2 ≤ confBigTournament.tournamentSize →
       ∃ t1 t2, selectTreeK confBigTournament popEx 0 0 zeroS =
         .ok (t1, t2))) :=
  ⟨by decide, by decide,
   c8_tournament_size_amended confBigTournament popEx 0 0 zeroS
     (by decide) (by decide)⟩

theorem subRun_length (c : Config) (tm : TreeManager) (fit : TreeNode → Rat)
    (pop : List (TreeNode × Rat)) (ds : Nat → IterDraw) :
    ∀ (n i : Nat) (l : List (TreeNode × Rat)),
      subRun c tm fit pop ds i n = .ok l → l.length = n := by
  intro n
  induction n with
  | zero =>
    intro i l h
    simp only [subRun] at h
    cases h
    rfl
  | succ n ih =>
    intro i l h
    simp only [subRun] at h
    split at h
    · cases h
    · rename_i x hx
      split at h
      · cases h
      · rename_i rest hrest
        cases h
        simp [ih (i + 1) rest hrest]

theorem runShards_length (c : Config) (tm : TreeManager)
    (fit : TreeNode → Rat) (pop : List (TreeNode × Rat))
    (ds : Nat → Nat → IterDraw) :
    ∀ (sizes : List Nat) (j : Nat) (l : List (TreeNode × Rat)),
      runShards c tm fit pop ds sizes j = .ok l → l.length = sizes.sum := by
  intro sizes
  induction sizes with
  | nil =>
    intro j l h
    simp only [runShards] at h
    cases h
    rfl
  | cons sz rest ih =>
    intro j l h
    simp only [runShards] at h
    split at h
    · cases h
    · rename_i shard hshard
      split at h
      · cases h
      · rename_i more hmore
        cases h
        simp [subRun_length c tm fit pop (ds j) sz 0 shard hshard,
          ih (j + 1) more hmore]

theorem shardSizes_sum (P J : Nat) (hJ : 1 ≤ J) (hJP : J ≤ P) :
    (shardSizes P J).sum = P := by
  rw [shardSizes]
  have h1 : P / J * J ≤ P := Nat.div_mul_le_self P J
  have h2 : (J - 1) * (P / J) ≤ J * (P / J) :=
    Nat.mul_le_mul_right _ (by omega)
  have h3 : J * (P / J) = P / J * J := Nat.mul_comm _ _
  simp only [List.sum_append, List.sum_replicate, smul_eq_mul,
    List.sum_cons, List.sum_nil]
  omega

/-- C9: each worker produces exactly its shard size of offspring
(`SubRun.run` appends once per loop iteration), the population of size
`P` is split into `J` shards — the first `J - 1` of size `⌊P/J⌋`, the
last taking the remainder — whose outputs are concatenated in shard
order, so a successful generation returns a next population of size
exactly `P`; a worker count exceeding the population size (or zero
workers) is rejected as a configuration error. -/
theorem c9_next_population_size (c : Config) (tm : TreeManager)
    (fit : TreeNode → Rat) (pop : List (TreeNode × Rat)) (J : Nat)
    (ds : Nat → Nat → IterDraw) :
    (1 ≤ J → J ≤ pop.length →
      ∀ out, runGeneration c tm fit pop J ds = .ok out →
        out.length = pop.length) ∧
    (pop.length < J →
      runGeneration c tm fit pop J ds = .error "invalid worker count") := by
  constructor
  · intro hJ hJP out h
    rw [runGeneration] at h
    rw [if_neg (by omega)] at h
    have := runShards_length c tm fit pop ds (shardSizes pop.length J) 0 out h
    rw [this, shardSizes_sum pop.length J hJ hJP]
  · intro hJP
    rw [runGeneration]
    rw [if_pos (Or.inr hJP)]

/-- Witness for C9: a two-individual population split across two
workers, each producing one offspring; the next population again has
size 2. -/
theorem c9_next_population_size_witness :
    1 ≤ 2 ∧ 2 ≤ popEx.length ∧
    runGeneration confC9 tmEx (fun _ => 1) popEx 2
      (fun _ _ => zeroDraw) = .ok c9out ∧
    c9out.length = popEx.length :=
  ⟨by decide, by decide, by rfl,
   (c9_next_population_size confC9 tmEx (fun _ => 1) popEx 2
      (fun _ _ => zeroDraw)).1 (by decide) (by decide) c9out (by rfl)⟩

theorem set_self_of_getElem {α : Type} :
    ∀ (l : List α) (j : Nat) (x : α), l[j]? = some x → l.set j x = l := by
  intro l
  induction l with
  | nil => intro j x h; simp at h
  | cons y rest ih =>
    intro j x h
    cases j with
    | zero =>
      simp at h
      subst h
      rfl
    | succ j =>
      simp at h
      simp [ih j x h]

theorem replaceAt_get (s : Nat → Nat) (donor : Option TreeNode)
    (depth : Nat) :
    ∀ (l : List (Option TreeNode)) (j : Nat) {c : TreeNode},
      l[j]? = some (some c) →
      replaceAt s donor l j depth =
        (replaceGo s donor c depth).map
          (fun p => (l.set j (some p.1), p.2)) := by
  intro l
  induction l with
  | nil => intro j c h; simp at h
  | cons x rest ih =>
    intro j c h
    cases j with
    | zero =>
      simp at h
      subst h
      simp only [replaceAt]
      cases replaceGo s donor c depth with
      | none => rfl
      | some p => rfl
    | succ j =>
      simp at h
      have := ih j h
      cases x with
      | none =>
        simp only [replaceAt, this]
        cases replaceGo s donor c depth with
        | none => rfl
        | some p => rfl
      | some y =>
        simp only [replaceAt, this]
        cases replaceGo s donor c depth with
        | none => rfl
        | some p => rfl

theorem replace_nop_aux (s : Nat → Nat) (donor : Option TreeNode) :
    ∀ (n : Nat) (t : TreeNode) (depth : Nat), sizeOf t ≤ n →
      wfT t = true → (t.args ≠ [] ∨ 1 ≤ depth) →
      drawnDepth s t depth = pathLen s t depth →
      replaceGo s donor t depth = some (t, drawnDepth s t depth) := by
  intro n
  induction n with
  | zero =>
    intro t depth hsz
    rcases t with ⟨nm, f, a, l⟩
    simp [TreeNode.mk.sizeOf_spec] at hsz
  | succ n ih =>
    intro t depth hsz hwf hg hL
    rcases t with ⟨nm, f, a, l⟩
    rcases l with _ | ⟨x, rest⟩
    · have hk1 : 1 ≤ depth := by
        rcases hg with h | h
        · simp [TreeNode.args] at h
        · exact h
      simp only [replaceGo]
      rw [if_neg (by omega : ¬ depth = 0)]
      have hd : drawnDepth s (.mk nm f a []) depth = s depth % depth + 1 := by
        unfold drawnDepth
        rw [pathLen_leaf s nm f a depth]
      rw [hd]
    · have hlen : 0 < (x :: rest).length := by simp
      have hjlt : s depth % (x :: rest).length < (x :: rest).length :=
        Nat.mod_lt _ hlen
      obtain ⟨c, hc, hwfc⟩ :=
        wfArgs_get (wfT_wfArgs hwf) (l := x :: rest) hjlt
      have hszc : sizeOf c ≤ n := by
        have h1 : sizeOf (some c) < sizeOf (x :: rest) :=
          List.sizeOf_lt_of_mem (List.getElem?_mem hc)
        have h2 : sizeOf c < sizeOf (some c) := by
          simp [Option.some.sizeOf_spec]
        rw [TreeNode.mk.sizeOf_spec] at hsz
        omega
      have hLc := pathLen_cons s nm f a depth hc
      have hD : drawnDepth s (.mk nm f a (x :: rest)) depth =
          drawnDepth s c (depth + 1) := by
        unfold drawnDepth
        rw [hLc]
      have hLc2 : drawnDepth s c (depth + 1) = pathLen s c (depth + 1) := by
        rw [← hD, ← hLc]
        exact hL
      have hrec := ih c (depth + 1) hszc hwfc (Or.inr (by omega)) hLc2
      have hge : depth + 1 ≤ pathLen s c (depth + 1) :=
        (select_spec s (sizeOf c) c (depth + 1) le_rfl hwfc
          (Or.inr (by omega))).2.2.2
      simp only [replaceGo]
      rw [replaceAt_get s donor (depth + 1) (x :: rest) _ hc, hrec]
      simp only [Option.map_some']
      rw [if_neg (by omega : ¬ drawnDepth s c (depth + 1) = depth)]
      rw [set_self_of_getElem (x :: rest) _ (some c) hc, hD]

/-- The defect behind C1, in general form: for any two trees satisfying
the arity invariant whose roots are function nodes, whenever the
replacement walk's target-depth draw equals the walked path length `L` —
the case where the locator designates the path's leaf, drawn with
probability `1/L` — `crossover` overwrites nothing and returns the
unchanged clone of the first parent. -/
theorem crossover_drawn_leaf_nop (s1 s2 : Nat → Nat) (t1 t2 : TreeNode)
    (hw1 : wfT t1 = true) (h1 : t1.args ≠ [])
    (hw2 : wfT t2 = true) (h2 : t2.args ≠ [])
    (hL : drawnDepth s2 t1 0 = pathLen s2 t1 0) :
    crossover s1 s2 t1 t2 = some t1 := by
  obtain ⟨hsel, _, _, _⟩ :=
    select_spec s1 (sizeOf t2) t2 0 le_rfl hw2 (Or.inl h2)
  rw [crossover, hsel]
  dsimp only
  rw [replace_nop_aux s2 _ (sizeOf t1) t1 0 le_rfl hw1 (Or.inl h1) hL]

/-- Closed instance of `crossover_drawn_leaf_nop` (its hypotheses
discharged on concrete trees): on depth-1 trees the draw always equals
the path length, so crossover never overwrites anything. -/
theorem crossover_drawn_leaf_nop_witness :
    wfT treeF = true ∧ treeF.args ≠ [] ∧ wfT treeG = true ∧
    treeG.args ≠ [] ∧
    drawnDepth zeroS treeF 0 = pathLen zeroS treeF 0 ∧
    crossover zeroS zeroS treeF treeG = some treeF :=
  ⟨by decide, by decide, by decide, by decide, by decide,
   crossover_drawn_leaf_nop zeroS zeroS treeF treeG (by decide) (by decide)
     (by decide) (by decide) (by decide)⟩
